import Mathlib

/-!
Verification of the graph-construction pass of `graph_transformation.py`
(deepmpls): the lowering of a network model (routers, interfaces, links,
MPLS forwarding tables) together with a parsed reachability query into a
single typed graph.

The Python code is shallowly embedded: each Python function becomes a Lean
function of the same name; the networkx undirected simple graph becomes an
insertion-ordered association list of nodes plus an edge list; Python
exceptions (including the failed `assert`) become `Except Err`.

Identity conventions of the embedding (matching the Python object/value
identities):
  * routers are identified by name (names are assumed distinct, as required
    for the `name2router` dictionary to be faithful);
  * interfaces by (router name, interface name);
  * labels by value, with `none` standing for the interned no-label
    sentinel `xml.get_label(None)` / `model.NoLabel`;
  * rules and actions by their position (table index, destination index
    [, action index]) — distinct positions hold distinct Python objects;
  * query-AST atoms by (which pattern, position) — each atom is a distinct
    Python object; for a quantified atom only one of outer/inner object
    ever becomes a node, so one key per position suffices;
  * plain Python strings used as node keys (the "empty" sentinel of
    `build_labels_graph_repr`, unknown router names) map to `NodeId.strN`.
-/

namespace GT

/-- The `NodeType` IntEnum of the source. -/
inductive NodeType where
  | Router | Interface | Label | Rule
  | PushAction | SwapAction | PopAction
  | Query | QueryAtom | Any | OneOrMore | ZeroOrMore
  deriving DecidableEq, Repr

/-- Node keys: Python object/value identities used as networkx node keys. -/
inductive NodeId where
  /-- a `Router` domain object, identified by its (unique) name -/
  | routerN (name : String)
  /-- an `Interface` domain object, identified by (router name, intf name) -/
  | intfN (rtr : String) (name : String)
  /-- an interned label object; `none` is the no-label sentinel -/
  | labelN (l : Option String)
  /-- the first rule of the first TE group of destination `d` of table `t` -/
  | ruleN (t : Nat) (d : Nat)
  /-- action `j` of that rule -/
  | actionN (t : Nat) (d : Nat) (j : Nat)
  /-- query-AST atom number `i` of pattern `p` (0 = constructing,
      1 = network, 2 = destructing) -/
  | atomN (p : Nat) (i : Nat)
  /-- a plain Python string used as a node key -/
  | strN (s : String)
  /-- the `NodeType.Query` enum value used as the query node's key -/
  | queryN
  deriving DecidableEq, Repr

/-- Node attributes (`ntype`, `nlabel`, and the query node's `k`). -/
structure NAttr where
  ntype : NodeType
  nlabel : String
  karg : Option Int := none
  deriving DecidableEq, Repr

/-- The networkx undirected simple graph: nodes in insertion order with
optional attributes (a node created implicitly by `add_edge` has none), and
edges in insertion order, each unordered pair present at most once. -/
structure Graph where
  nodes : List (NodeId × Option NAttr)
  edges : List (NodeId × NodeId)
  deriving DecidableEq, Repr

def Graph.empty : Graph := ⟨[], []⟩

/-- `n in G.nodes` -/
def Graph.hasNode (G : Graph) (n : NodeId) : Prop :=
  ∃ p ∈ G.nodes, p.1 = n

instance (G : Graph) (n : NodeId) : Decidable (G.hasNode n) :=
  inferInstanceAs (Decidable (∃ p ∈ G.nodes, p.1 = n))

/-- First-match attribute lookup in the association list. -/
def lookupAttr (l : List (NodeId × Option NAttr)) (m : NodeId) : Option NAttr :=
  match l with
  | [] => none
  | p :: rest => if p.1 = m then p.2 else lookupAttr rest m

/-- Attribute lookup (`G.nodes[n]`); `none` both for a missing node and for
a node created without attributes. -/
def Graph.attr (G : Graph) (n : NodeId) : Option NAttr :=
  lookupAttr G.nodes n

/-- `G.add_node(n, **attrs)`: creates the node or, when present, replaces
its attributes (networkx merges the attr dict; all call sites pass the same
keys, so merging is replacement). -/
def Graph.add_node (G : Graph) (n : NodeId) (a : NAttr) : Graph :=
  if G.hasNode n then
    { G with nodes := G.nodes.map (fun p => if p.1 = n then (n, some a) else p) }
  else
    { G with nodes := G.nodes ++ [(n, some a)] }

/-- Implicit node creation by `add_edge`: no attributes, no overwrite. -/
def Graph.touch (G : Graph) (n : NodeId) : Graph :=
  if G.hasNode n then G else { G with nodes := G.nodes ++ [(n, none)] }

def Graph.hasEdge (G : Graph) (a b : NodeId) : Prop :=
  ∃ e ∈ G.edges, (e.1 = a ∧ e.2 = b) ∨ (e.1 = b ∧ e.2 = a)

instance (G : Graph) (a b : NodeId) : Decidable (G.hasEdge a b) :=
  inferInstanceAs (Decidable (∃ e ∈ G.edges, _ ∨ _))

/-- Edge insertion proper: the undirected edge is appended unless present. -/
def Graph.withEdge (G : Graph) (a b : NodeId) : Graph :=
  if G.hasEdge a b then G else { G with edges := G.edges ++ [(a, b)] }

/-- `G.add_edge(a, b)`: creates missing endpoints, then adds the edge. -/
def Graph.add_edge (G : Graph) (a b : NodeId) : Graph :=
  ((G.touch a).touch b).withEdge a b

/-- Number of edges incident to `n`. -/
def Graph.incidentCount (G : Graph) (n : NodeId) : Nat :=
  (G.edges.filter (fun e => e.1 = n ∨ e.2 = n)).length

/-- Python's `str.strip()`: drop leading and trailing whitespace
(structurally recursive so that concrete runs evaluate). -/
def pyStrip (s : String) : String :=
  ⟨((s.data.dropWhile Char.isWhitespace).reverse.dropWhile Char.isWhitespace).reverse⟩

instance {A B : Type} [DecidableEq A] [DecidableEq B] : DecidableEq (Except A B) :=
  fun a b =>
    match a, b with
    | .ok x, .ok y => decidable_of_iff (x = y) (by simp)
    | .error x, .error y => decidable_of_iff (x = y) (by simp)
    | .ok _, .error _ => isFalse (by simp)
    | .error _, .ok _ => isFalse (by simp)

/-! ## The query AST (produced by the out-of-scope P-Rex parser) -/

/-- An unquantified atom: `ASimpleAtom` (carrying its symbol string) or
`AAnyAtom`. -/
inductive Atom where
  | simple (symbol : String)
  | anyA
  deriving DecidableEq, Repr

/-- `AZeroOrMoreQuantifier` / `AOneOrMoreQuantifier`. -/
inductive Quantifier where
  | zeroOrMore | oneOrMore
  deriving DecidableEq, Repr

/-- A pattern atom: plain, or `AQuantifiedAtom` wrapping an atom. -/
inductive PAtom where
  | plain (a : Atom)
  | quantified (q : Quantifier) (a : Atom)
  deriving DecidableEq, Repr

/-- The parsed query: constructing pattern, network (router-path) pattern,
destructing pattern.  A `none` pattern is Python `None`. -/
structure QueryAst where
  constr : Option (List PAtom)
  network : List PAtom
  destr : Option (List PAtom)
  deriving Repr

/-! ## The network model (consumed shapes from P-Rex) -/

/-- An interface reference: (owning router name, interface name). -/
structure Intf where
  rtr : String
  name : String
  deriving DecidableEq, Repr

def Intf.nodeId (i : Intf) : NodeId := .intfN i.rtr i.name

structure Router where
  name : String
  interfaces : List String
  deriving Repr

/-- A link between two interface endpoints (`lnk.from_.interface`,
`lnk.to.interface`). -/
structure Link where
  fromI : Intf
  toI : Intf
  deriving Repr

/-- A rule action: `PushAction` / `SwapAction` (with their label) /
`PopAction`, plus a constructor standing for any other action kind the
defensive `else` of the source rejects. -/
inductive Action where
  | push (label : String)
  | swap (label : String)
  | pop
  | unknownAction
  deriving DecidableEq, Repr

/-- A forwarding rule: input interface, label (`none` = `model.NoLabel`),
ordered action list, output interface. -/
structure Rule where
  fromI : Intf
  label : Option String
  actions : List Action
  toI : Intf
  deriving Repr

structure TEGroup where
  rules : List Rule
  deriving Repr

structure Destination where
  te_groups : List TEGroup
  deriving Repr

/-- The network model: topology plus routing. `labels` is the result of
`net.routing.collect_labels()`; `routingTables` pairs each router name with
its table's ordered destination entries. -/
structure Network where
  routers : List Router
  links : List Link
  labels : List String
  routingTables : List (String × List Destination)
  deriving Repr

/-! ## Errors (Python exceptions) -/

inductive Err where
  /-- `raise Exception("Case not covered by code")` -/
  | caseNotCovered
  /-- `raise Exception("Unknown quantifier type: ...")` -/
  | unknownQuantifier
  /-- `raise Exception("Unknown atom type: ...")` in `atom_label_to_node` -/
  | unknownAtomType
  /-- `raise Exception("Unknown action type: ...")` -/
  | unknownActionType
  /-- `raise Exception("Unknown atom: ... quantifier=...")` in the
      router-path loop -/
  | unknownNetAtom
  /-- the failed `assert lbl in G.nodes` of `atom_label_to_node` -/
  | labelNotRegistered
  /-- Python `IndexError` on `dest.te_groups[0].rules[0]` -/
  | indexError
  /-- Python `TypeError`: a list used as a node key is unhashable -/
  | typeError
  deriving DecidableEq, Repr

/-- The value of the Python variable `last`/`lastnode`: a single node, or
the list of parallel nodes returned by `build_labels_graph_repr`. -/
inductive LastVal where
  | single (n : NodeId)
  | multi (ns : List NodeId)
  deriving DecidableEq, Repr

/-- `G.add_edge(last, b)` where `last` may be a Python list: a list node key
raises `TypeError` (unhashable). -/
def addEdgeFromLast (G : Graph) (l : LastVal) (b : NodeId) : Except Err Graph :=
  match l with
  | .single a => .ok (G.add_edge a b)
  | .multi _ => .error .typeError

/-- `for l in last: G.add_edge(l, atom)` / `G.add_edge(last, atom)` in the
router-path loop, where a list value is iterated (no `TypeError` there). -/
def addEdgesFrom (G : Graph) (ns : List NodeId) (b : NodeId) : Graph :=
  match ns with
  | [] => G
  | n :: rest => addEdgesFrom (G.add_edge n b) rest b

def edgesFromLast (G : Graph) (l : LastVal) (b : NodeId) : Graph :=
  match l with
  | .single a => G.add_edge a b
  | .multi ns => addEdgesFrom G ns b

/-! ## `ensure_label_nodes` (source lines 31–53) -/

/-- The body of the `if lbl not in G.nodes` registration: `lbl =
xml.get_label(str(symb).strip())`, added as a Label node when missing
(existing attributes are NOT overwritten here). -/
def registerLabel (G : Graph) (s : String) : Graph :=
  if G.hasNode (.labelN (some (pyStrip s))) then G
  else G.add_node (.labelN (some (pyStrip s))) ⟨.Label, "label:" ++ (pyStrip s), none⟩

def ensureLoop (G : Graph) : List PAtom → Graph
  | [] => G
  | a :: rest =>
    match a with
    | .plain (.simple s) => ensureLoop (registerLabel G s) rest
    | .quantified _ (.simple s) => ensureLoop (registerLabel G s) rest
    | _ => ensureLoop G rest

def ensure_label_nodes (G : Graph) (st : Option (List PAtom)) : Graph :=
  match st with
  | none => G
  | some atoms => ensureLoop G atoms

/-! ## `atom_label_to_node` (source lines 56–70) -/

/-- `nid` is the node key of the atom object passed in. The `assert lbl in
G.nodes` becomes `Err.labelNotRegistered`. -/
def atom_label_to_node (G : Graph) (nid : NodeId) (a : Atom) :
    Except Err (Graph × NodeId) :=
  match a with
  | .simple s =>
    let lbl := NodeId.labelN (some (pyStrip s))
    if G.hasNode lbl then
      let G := G.add_node nid ⟨.QueryAtom, "atom:label:" ++ (pyStrip s), none⟩
      .ok (G.add_edge nid lbl, nid)
    else
      .error .labelNotRegistered
  | .anyA => .ok (G.add_node nid ⟨.Label, "atom:any", none⟩, nid)

/-! ## `build_labels_graph_repr` (source lines 73–134) -/

/-- `isinstance(lastatom, ASimpleAtom)`: the previous atom was a plain
(unquantified) label atom. -/
def isPlainSimpleA : Option PAtom → Bool
  | some (.plain (.simple _)) => true
  | _ => false

/-- The `for atom in st.getAtoms()` loop of `build_labels_graph_repr`,
carrying the loop state (`lastnode`, `par_nodes`, `lastatom`,
`branch_next`); `pid` tags which pattern the atoms come from and `i` is the
current atom's position. -/
def buildLoop (pid : Nat) (G : Graph) (lastnode : LastVal) (atoms : List PAtom)
    (i : Nat) (par_nodes : List NodeId) (lastatom : Option PAtom)
    (branch_next : Bool) : Except Err (Graph × LastVal) :=
  match atoms with
  | [] => if par_nodes.length > 0 then .ok (G, .multi par_nodes) else .ok (G, lastnode)
  | atom :: rest =>
    match atom with
    | .quantified q a =>
      if isPlainSimpleA lastatom then
        .error .caseNotCovered
      else
        match q, a with
        | .zeroOrMore, .anyA =>
          let G := G.add_node (.atomN pid i) ⟨.ZeroOrMore, "atom:label:.*", none⟩
          match addEdgeFromLast G lastnode (.atomN pid i) with
          | .error e => .error e
          | .ok G =>
            buildLoop pid G (.single (.atomN pid i)) rest (i + 1) par_nodes
              (some atom) branch_next
        | .oneOrMore, .anyA =>
          let G := G.add_node (.atomN pid i) ⟨.OneOrMore, "atom:label:.+", none⟩
          match addEdgeFromLast G lastnode (.atomN pid i) with
          | .error e => .error e
          | .ok G =>
            buildLoop pid G (.single (.atomN pid i)) rest (i + 1) par_nodes
              (some atom) branch_next
        | .oneOrMore, .simple s =>
          match atom_label_to_node G (.atomN pid i) (.simple s) with
          | .error e => .error e
          | .ok (G, node) =>
            match addEdgeFromLast G lastnode node with
            | .error e => .error e
            | .ok G =>
              buildLoop pid G lastnode rest (i + 1) (par_nodes ++ [node])
                (some atom) true
        | .zeroOrMore, .simple _ => .error .unknownQuantifier
    | .plain a =>
      match atom_label_to_node G (.atomN pid i) a with
      | .error e => .error e
      | .ok (G, node) =>
        if branch_next then
          match addEdgeFromLast G lastnode node with
          | .error e => .error e
          | .ok G =>
            buildLoop pid G lastnode rest (i + 1) (par_nodes ++ [node])
              (some atom) false
        else if par_nodes.length > 0 then
          let G := addEdgesFrom G par_nodes node
          buildLoop pid G (.single node) rest (i + 1) [] (some atom) false
        else
          match addEdgeFromLast G lastnode node with
          | .error e => .error e
          | .ok G =>
            buildLoop pid G (.single node) rest (i + 1) [] (some atom) false

def build_labels_graph_repr (G : Graph) (lastnode : LastVal)
    (st : Option (List PAtom)) (pid : Nat) : Except Err (Graph × LastVal) :=
  match st with
  | none =>
    let G := G.add_node (.strN "empty") ⟨.Label, "label:empty", none⟩
    match addEdgeFromLast G lastnode (.strN "empty") with
    | .error e => .error e
    | .ok G => .ok (G, .single (.strN "empty"))
  | some atoms => buildLoop pid G lastnode atoms 0 [] none false

/-! ## Topology and label encoding (source lines 148–167) -/

def addIfaces (G : Graph) (rname : String) : List String → Graph
  | [] => G
  | iname :: rest =>
    let G := G.add_node (.intfN rname iname)
      ⟨.Interface, "intf:" ++ rname ++ ":" ++ iname, none⟩
    let G := G.add_edge (.routerN rname) (.intfN rname iname)
    addIfaces G rname rest

def addRouters (G : Graph) : List Router → Graph
  | [] => G
  | r :: rest =>
    let G := G.add_node (.routerN r.name) ⟨.Router, "router:" ++ r.name, none⟩
    addRouters (addIfaces G r.name r.interfaces) rest

def addLinks (G : Graph) : List Link → Graph
  | [] => G
  | l :: rest => addLinks (G.add_edge l.fromI.nodeId l.toI.nodeId) rest

def addLabels (G : Graph) : List String → Graph
  | [] => G
  | l :: rest =>
    addLabels (G.add_node (.labelN (some l)) ⟨.Label, "label:" ++ l, none⟩) rest

/-- `rtr in name2router` -/
def knownRouter (net : Network) (s : String) : Bool :=
  net.routers.any (fun r => r.name = s)

/-! ## Forwarding encoding (source lines 169–199) -/

/-- `dest.te_groups[0].rules[0]`; an empty list raises `IndexError`. -/
def firstRule (dest : Destination) : Except Err Rule :=
  match dest.te_groups with
  | [] => .error .indexError
  | g :: _ =>
    match g.rules with
    | [] => .error .indexError
    | r :: _ => .ok r

/-- The typed action node (and its label edge for push/swap) for action `j`
of rule `(t, d)` (source lines 180–192). -/
def actionNode (G : Graph) (t d j : Nat) (rname : String) (a : Action) :
    Except Err Graph :=
  match a with
  | .push l =>
    let G := G.add_node (.actionN t d j)
      ⟨.PushAction, rname ++ ":rule" ++ toString d ++ ":action" ++ toString j ++ ":PUSH", none⟩
    .ok (G.add_edge (.actionN t d j) (.labelN (some l)))
  | .swap l =>
    let G := G.add_node (.actionN t d j)
      ⟨.SwapAction, rname ++ ":rule" ++ toString d ++ ":action" ++ toString j ++ ":SWAP", none⟩
    .ok (G.add_edge (.actionN t d j) (.labelN (some l)))
  | .pop =>
    .ok (G.add_node (.actionN t d j)
      ⟨.PopAction, rname ++ ":rule" ++ toString d ++ ":action" ++ toString j ++ ":POP", none⟩)
  | .unknownAction => .error .unknownActionType

/-- The `for j, action in enumerate(rule.actions)` loop, returning the
final `last` node (source lines 179–195). -/
def actionsLoop (G : Graph) (t d : Nat) (rname : String) (last : NodeId)
    (j : Nat) : List Action → Except Err (Graph × NodeId)
  | [] => .ok (G, last)
  | a :: rest =>
    match actionNode G t d j rname a with
    | .error e => .error e
    | .ok G =>
      let G := G.add_edge last (.actionN t d j)
      actionsLoop G t d rname (.actionN t d j) (j + 1) rest

/-- One destination entry: the Rule node for the first rule of the first TE
group, its interface/label edges and its action chain (source lines
171–199); `d` doubles as the per-router display index `i`. -/
def destStep (G : Graph) (t d : Nat) (rname : String) (dest : Destination) :
    Except Err Graph :=
  match firstRule dest with
  | .error e => .error e
  | .ok rule =>
    let G := G.add_node (.ruleN t d) ⟨.Rule, rname ++ ":rule" ++ toString d, none⟩
    let G := G.add_edge (.ruleN t d) rule.fromI.nodeId
    let G := match rule.label with
             | none => G
             | some l => G.add_edge (.ruleN t d) (.labelN (some l))
    match actionsLoop G t d rname (.ruleN t d) 0 rule.actions with
    | .error e => .error e
    | .ok (G, last) => .ok (G.add_edge last rule.toI.nodeId)

def destsLoop (G : Graph) (t : Nat) (rname : String) (d : Nat) :
    List Destination → Except Err Graph
  | [] => .ok G
  | dest :: rest =>
    match destStep G t d rname dest with
    | .error e => .error e
    | .ok G => destsLoop G t rname (d + 1) rest

/-- `for rtr, table in net.routing.routingTables` (source line 169). -/
def tablesLoop (G : Graph) (t : Nat) :
    List (String × List Destination) → Except Err Graph
  | [] => .ok G
  | (rname, dests) :: rest =>
    match destsLoop G t rname 0 dests with
    | .error e => .error e
    | .ok G => tablesLoop G (t + 1) rest

/-! ## Router-path encoding (source lines 221–267) -/

/-- One atom of the `query_ast.getNetwork()` loop; `i` is its position. -/
def netStep (net : Network) (G : Graph) (last : LastVal) (i : Nat) :
    PAtom → Except Err (Graph × LastVal)
  | .plain (.simple s) =>
    let rname := (pyStrip s)
    let G := G.add_node (.atomN 1 i) ⟨.QueryAtom, "atom:router:" ++ rname, none⟩
    let Gt := if knownRouter net rname then (G, NodeId.routerN rname)
              else (G.add_node (.strN rname) ⟨.Router, rname, none⟩, NodeId.strN rname)
    let G := edgesFromLast Gt.1 last (.atomN 1 i)
    let G := G.add_edge (.atomN 1 i) Gt.2
    .ok (G, .single (.atomN 1 i))
  | .quantified q a =>
    match q, a with
    | .oneOrMore, .anyA =>
      let G := G.add_node (.atomN 1 i) ⟨.ZeroOrMore, "atom:router:.*", none⟩
      let G := edgesFromLast G last (.atomN 1 i)
      .ok (G, .single (.atomN 1 i))
    | .zeroOrMore, .anyA =>
      let G := G.add_node (.atomN 1 i) ⟨.OneOrMore, "atom:router:.+", none⟩
      let G := edgesFromLast G last (.atomN 1 i)
      .ok (G, .single (.atomN 1 i))
    | _, _ => .error .unknownNetAtom
  | .plain .anyA =>
    let G := G.add_node (.atomN 1 i) ⟨.Any, "router:.", none⟩
    let G := edgesFromLast G last (.atomN 1 i)
    .ok (G, .single (.atomN 1 i))

def netLoop (net : Network) (G : Graph) (last : LastVal) (i : Nat) :
    List PAtom → Except Err (Graph × LastVal)
  | [] => .ok (G, last)
  | a :: rest =>
    match netStep net G last i a with
    | .error e => .error e
    | .ok (G, last) => netLoop net G last (i + 1) rest

/-! ## `mpls2graph` (source lines 137–271); the out-of-scope lexer/parser
is replaced by taking the parsed `QueryAst` directly. -/

/-- The graph after the topology phase and label registration (source
lines 148–167): routers, interfaces, links, the no-label sentinel and the
collected labels. -/
def baseGraph (net : Network) : Graph :=
  let G := addRouters Graph.empty net.routers
  let G := addLinks G net.links
  let G := G.add_node (.labelN none) ⟨.Label, "label:none", none⟩
  addLabels G net.labels

def mpls2graph (net : Network) (query : QueryAst) (k : Int) : Except Err Graph :=
  match tablesLoop (baseGraph net) 0 net.routingTables with
  | .error e => .error e
  | .ok G =>
    let G := ensure_label_nodes G query.constr
    let G := ensure_label_nodes G query.destr
    let G := G.add_node .queryN ⟨.Query, "query", some k⟩
    match build_labels_graph_repr G (.single .queryN) query.constr 0 with
    | .error e => .error e
    | .ok (G, last) =>
      match netLoop net G last 0 query.network with
      | .error e => .error e
      | .ok (G, last) =>
        match build_labels_graph_repr G last query.destr 2 with
        | .error e => .error e
        | .ok (G, _) => .ok G

/-! ## Derived notions used to state the verified properties -/

/-- The set of nodes a `last` value denotes. -/
def LastVal.toList : LastVal → List NodeId
  | .single n => [n]
  | .multi ns => ns

/-- Whether a run of `mpls2graph` ended in the failed
`assert lbl in G.nodes` of `atom_label_to_node`. -/
def failsLabelAssert : Except Err Graph → Bool
  | .error .labelNotRegistered => true
  | _ => false

/-- The symbols of the label-referencing atoms of a pattern: plain simple
atoms and quantified atoms wrapping a simple atom (exactly the atoms
`ensure_label_nodes` registers and `atom_label_to_node` asserts on). -/
def patternLabels : List PAtom → List String
  | [] => []
  | .plain (.simple s) :: rest => s :: patternLabels rest
  | .quantified _ (.simple s) :: rest => s :: patternLabels rest
  | _ :: rest => patternLabels rest

/-- All label-referencing atoms of `atoms` have a registered Label node. -/
def labelsRegistered (G : Graph) (atoms : List PAtom) : Prop :=
  ∀ s ∈ patternLabels atoms, G.hasNode (.labelN (some (pyStrip s)))

/-- The node preceding action `j` in a rule's chain: the Rule node for
`j = 0`, otherwise action `j - 1`. -/
def chainNode (t d : Nat) : Nat → NodeId
  | 0 => .ruleN t d
  | j + 1 => .actionN t d j

/-- The attributes the forwarding encoder gives the Rule node of
destination `d` of router `rname`. -/
def ruleAttr (d : Nat) (rname : String) : NAttr :=
  ⟨.Rule, rname ++ ":rule" ++ toString d, none⟩

/-- The attributes the forwarding encoder gives action node `j`
(`none` for the unsupported action kind, which never yields a node). -/
def actionAttr (d j : Nat) (rname : String) : Action → Option NAttr
  | .push _ => some ⟨.PushAction, rname ++ ":rule" ++ toString d ++ ":action" ++ toString j ++ ":PUSH", none⟩
  | .swap _ => some ⟨.SwapAction, rname ++ ":rule" ++ toString d ++ ":action" ++ toString j ++ ":SWAP", none⟩
  | .pop => some ⟨.PopAction, rname ++ ":rule" ++ toString d ++ ":action" ++ toString j ++ ":POP", none⟩
  | .unknownAction => none

/-- The label a push/swap action manipulates (`none` for pop). -/
def actionLabel : Action → Option String
  | .push l => some l
  | .swap l => some l
  | .pop => none
  | .unknownAction => none

/-- The possible shapes of edges the forwarding encoder adds for the rule
`r` encoded at position `(t, d)`. -/
def fwdRuleEdge (t d : Nat) (r : Rule) (e : NodeId × NodeId) : Prop :=
  e = (.ruleN t d, r.fromI.nodeId) ∨
  (∃ l, r.label = some l ∧ e = (.ruleN t d, .labelN (some l))) ∨
  (∃ j a l, r.actions[j]? = some a ∧ actionLabel a = some l ∧
    e = (.actionN t d j, .labelN (some l))) ∨
  (∃ j, j < r.actions.length ∧ e = (chainNode t d j, .actionN t d j)) ∨
  e = (chainNode t d r.actions.length, r.toI.nodeId)

/-- The possible shapes of edges the whole forwarding phase adds, with
destination indices at least `dlo` for table index `tlo` and any index for
later tables (matching the loop's progress). -/
def fwdEdgeFrom (tables : List (String × List Destination)) (tlo dlo : Nat)
    (e : NodeId × NodeId) : Prop :=
  ∃ t entry d dest r, tables[t]? = some entry ∧ entry.2[d]? = some dest ∧
    (t = tlo → dlo ≤ d) ∧ tlo ≤ t ∧
    firstRule dest = .ok r ∧ fwdRuleEdge t d r e

/-- A node id the topology/label phase can create. -/
def topoNode : NodeId → Prop
  | .routerN _ => True
  | .intfN _ _ => True
  | .labelN _ => True
  | _ => False

/-- The atom is a plain atom naming an unknown router literally called
`empty` (after trimming). -/
def namesEmptyUnknown (net : Network) : PAtom → Prop
  | .plain (.simple s) => (pyStrip s) = "empty" ∧ ¬ knownRouter net "empty"
  | _ => False

instance (net : Network) (a : PAtom) : Decidable (namesEmptyUnknown net a) :=
  match a with
  | .plain (.simple _) => inferInstanceAs (Decidable (_ ∧ _))
  | .plain .anyA => isFalse (fun h => h)
  | .quantified _ _ => isFalse (fun h => h)

/-- The router-path loop would re-key the string node `"empty"` as a
Router node. -/
def overwritesEmptyNode (net : Network) (atoms : List PAtom) : Prop :=
  ∃ a ∈ atoms, namesEmptyUnknown net a

instance (net : Network) (atoms : List PAtom) :
    Decidable (overwritesEmptyNode net atoms) :=
  inferInstanceAs (Decidable (∃ a ∈ atoms, _))

/-- A run of the label-pattern encoder succeeded and its result satisfies
the (boolean) predicate. -/
def resultSat (r : Except Err (Graph × LastVal)) (p : Graph × LastVal → Bool) : Bool :=
  match r with
  | .ok x => p x
  | .error _ => false

/-- A run of `mpls2graph` succeeded and its graph satisfies the predicate. -/
def graphSat (r : Except Err Graph) (p : Graph → Bool) : Bool :=
  match r with
  | .ok G => p G
  | .error _ => false

/-! ## Concrete inputs used for counterexamples and witnesses -/

/-- A network with no routers, links, labels or routing tables. -/
def emptyNet : Network := ⟨[], [], [], []⟩

/-- Query `<> X <>`: unknown plain router name `X`, no label patterns. -/
def qUnknownRouter : QueryAst := ⟨none, [.plain (.simple "X")], none⟩

/-- A query whose router path names an unknown router literally called
`empty`, with a non-absent destructing pattern. -/
def qEmptyRouter : QueryAst := ⟨none, [.plain (.simple "empty")], some [.plain .anyA]⟩

/-- Start graph for label-pattern encoder runs: the query node plus
registered labels `a` and `b`. -/
def cexStart : Graph :=
  ((Graph.empty.add_node .queryN ⟨.Query, "query", some 0⟩).add_node
    (.labelN (some "a")) ⟨.Label, "label:a", none⟩).add_node
    (.labelN (some "b")) ⟨.Label, "label:b", none⟩

/-- A query whose constructing pattern is `a a+` (plain label atom followed
by a one-or-more-quantified label atom). -/
def qPlainThenPlus : QueryAst :=
  ⟨some [.plain (.simple "a"), .quantified .oneOrMore (.simple "a")], [], none⟩

/-- The constructing pattern `a+ b`. -/
def patAPlusB : List PAtom := [.quantified .oneOrMore (.simple "a"), .plain (.simple "b")]

/-- The pattern `a .*` (plain label atom, then zero-or-more any). -/
def patAZeroAny : List PAtom := [.plain (.simple "a"), .quantified .zeroOrMore .anyA]

/-- A rule matching `L1` on `R1.i0`, swapping to `L2`, leaving via
`R1.i1`. -/
def rule8 : Rule := ⟨⟨"R1", "i0"⟩, some "L1", [.swap "L2"], ⟨"R1", "i1"⟩⟩

/-- A destination whose first TE-group's first rule is `rule8`. -/
def dest8 : Destination := ⟨[⟨[rule8]⟩]⟩

/-- A two-router network: `R1` (interfaces `i0`, `i1`) and `R2`
(interface `i0`), one link `R1.i1 -- R2.i0`, labels `L1` and `L2`, and a
single routing table on `R1` holding `dest8`. -/
def net8 : Network :=
  ⟨[⟨"R1", ["i0", "i1"]⟩, ⟨"R2", ["i0"]⟩],
   [⟨⟨"R1", "i1"⟩, ⟨"R2", "i0"⟩⟩],
   ["L1", "L2"],
   [("R1", [dest8])]⟩

/-- The graph the forwarding phase produces on `net8` (total by matching
on the loop's result, which succeeds on this input). -/
def fwd8 : Graph :=
  match tablesLoop (baseGraph net8) 0 net8.routingTables with
  | .ok G => G
  | .error _ => Graph.empty

/-- The graph `mpls2graph` produces on the empty network and the query
`<> X <>` (total by matching on the result, which succeeds on this
input). -/
def mg9 : Graph :=
  match mpls2graph emptyNet qUnknownRouter 0 with
  | .ok G => G
  | .error _ => Graph.empty

/-! ## Generic lemmas about the graph operations -/

namespace Graph

theorem edges_touch (G : Graph) (n : NodeId) : (G.touch n).edges = G.edges := by
  unfold touch; split <;> rfl

theorem edges_add_node (G : Graph) (n : NodeId) (a : NAttr) :
    (G.add_node n a).edges = G.edges := by
  unfold add_node; split <;> rfl

theorem hasEdge_touch (G : Graph) (n : NodeId) (x y : NodeId) :
    (G.touch n).hasEdge x y ↔ G.hasEdge x y := by
  unfold hasEdge; rw [edges_touch]

theorem hasEdge_add_node (G : Graph) (n : NodeId) (a : NAttr) (x y : NodeId) :
    (G.add_node n a).hasEdge x y ↔ G.hasEdge x y := by
  unfold hasEdge; rw [edges_add_node]

theorem nodes_withEdge (G : Graph) (a b : NodeId) :
    (G.withEdge a b).nodes = G.nodes := by
  unfold withEdge; split <;> rfl

theorem nodes_add_edge (G : Graph) (a b : NodeId) :
    (G.add_edge a b).nodes = ((G.touch a).touch b).nodes := by
  unfold add_edge; rw [nodes_withEdge]

theorem hasNode_touch (G : Graph) (n m : NodeId) :
    (G.touch n).hasNode m ↔ (G.hasNode m ∨ m = n) := by
  unfold touch
  split
  · rename_i h
    exact ⟨fun h' => Or.inl h', fun h' => h'.elim id (fun e => e ▸ h)⟩
  · unfold hasNode
    constructor
    · rintro ⟨p, hp, hpm⟩
      rcases List.mem_append.mp hp with hp | hp
      · exact Or.inl ⟨p, hp, hpm⟩
      · simp only [List.mem_singleton] at hp
        subst hp
        exact Or.inr hpm.symm
    · rintro (⟨p, hp, hpm⟩ | rfl)
      · exact ⟨p, List.mem_append.mpr (Or.inl hp), hpm⟩
      · exact ⟨(m, none), List.mem_append.mpr (Or.inr (by simp)), rfl⟩

theorem hasNode_add_node (G : Graph) (n : NodeId) (a : NAttr) (m : NodeId) :
    (G.add_node n a).hasNode m ↔ (G.hasNode m ∨ m = n) := by
  unfold add_node
  split
  · rename_i h
    unfold hasNode
    constructor
    · rintro ⟨p, hp, hpm⟩
      obtain ⟨q, hq, rfl⟩ := List.mem_map.mp hp
      by_cases hqn : q.1 = n
      · simp only [if_pos hqn] at hpm
        exact Or.inr hpm.symm
      · simp only [if_neg hqn] at hpm
        exact Or.inl ⟨q, hq, hpm⟩
    · rintro (⟨p, hp, hpm⟩ | rfl)
      · by_cases hpn : p.1 = n
        · refine ⟨(n, some a), List.mem_map.mpr ⟨p, hp, by simp [hpn]⟩, ?_⟩
          rw [← hpm, hpn]
        · exact ⟨p, List.mem_map.mpr ⟨p, hp, by simp [hpn]⟩, hpm⟩
      · obtain ⟨p, hp, hpm⟩ := h
        exact ⟨(m, some a), List.mem_map.mpr ⟨p, hp, by simp [hpm]⟩, rfl⟩
  · unfold hasNode
    constructor
    · rintro ⟨p, hp, hpm⟩
      rcases List.mem_append.mp hp with hp | hp
      · exact Or.inl ⟨p, hp, hpm⟩
      · simp only [List.mem_singleton] at hp
        subst hp
        exact Or.inr hpm.symm
    · rintro (⟨p, hp, hpm⟩ | rfl)
      · exact ⟨p, List.mem_append.mpr (Or.inl hp), hpm⟩
      · exact ⟨(m, some a), List.mem_append.mpr (Or.inr (by simp)), rfl⟩

theorem hasNode_add_edge (G : Graph) (a b m : NodeId) :
    (G.add_edge a b).hasNode m ↔ (G.hasNode m ∨ m = a ∨ m = b) := by
  have h : (G.add_edge a b).hasNode m ↔ (((G.touch a).touch b)).hasNode m := by
    unfold hasNode
    rw [nodes_add_edge]
  rw [h, hasNode_touch, hasNode_touch]
  tauto

theorem hasEdge_withEdge_iff (G : Graph) (a b x y : NodeId) :
    (G.withEdge a b).hasEdge x y ↔
      (G.hasEdge x y ∨ (x = a ∧ y = b) ∨ (x = b ∧ y = a)) := by
  unfold withEdge
  split
  · rename_i h
    constructor
    · exact fun h' => Or.inl h'
    · rintro (h' | ⟨rfl, rfl⟩ | ⟨rfl, rfl⟩)
      · exact h'
      · exact h
      · obtain ⟨e, he, hor⟩ := h
        exact ⟨e, he, Or.symm hor⟩
  · unfold hasEdge
    constructor
    · rintro ⟨e, he, hor⟩
      rcases List.mem_append.mp he with he | he
      · exact Or.inl ⟨e, he, hor⟩
      · simp only [List.mem_singleton] at he
        subst he
        rcases hor with ⟨h1, h2⟩ | ⟨h1, h2⟩
        · exact Or.inr (Or.inl ⟨h1.symm, h2.symm⟩)
        · exact Or.inr (Or.inr ⟨h2.symm, h1.symm⟩)
    · rintro (⟨e, he, hor⟩ | ⟨rfl, rfl⟩ | ⟨rfl, rfl⟩)
      · exact ⟨e, List.mem_append.mpr (Or.inl he), hor⟩
      · exact ⟨(x, y), List.mem_append.mpr (Or.inr (by simp)), Or.inl ⟨rfl, rfl⟩⟩
      · exact ⟨(y, x), List.mem_append.mpr (Or.inr (by simp)), Or.inr ⟨rfl, rfl⟩⟩

theorem hasEdge_add_edge_iff (G : Graph) (a b x y : NodeId) :
    (G.add_edge a b).hasEdge x y ↔
      (G.hasEdge x y ∨ (x = a ∧ y = b) ∨ (x = b ∧ y = a)) := by
  unfold add_edge
  rw [hasEdge_withEdge_iff, hasEdge_touch, hasEdge_touch]

theorem hasEdge_mono_add_edge (G : Graph) (a b x y : NodeId)
    (h : G.hasEdge x y) : (G.add_edge a b).hasEdge x y := by
  rw [hasEdge_add_edge_iff]; exact Or.inl h

theorem hasEdge_add_edge_self (G : Graph) (a b : NodeId) :
    (G.add_edge a b).hasEdge a b := by
  rw [hasEdge_add_edge_iff]; exact Or.inr (Or.inl ⟨rfl, rfl⟩)

theorem hasEdge_symm (G : Graph) (x y : NodeId) (h : G.hasEdge x y) :
    G.hasEdge y x := by
  obtain ⟨e, he, hor⟩ := h
  exact ⟨e, he, Or.symm hor⟩

theorem hasNode_mono_add_node (G : Graph) (n : NodeId) (a : NAttr) (m : NodeId)
    (h : G.hasNode m) : (G.add_node n a).hasNode m := by
  rw [hasNode_add_node]; exact Or.inl h

theorem hasNode_mono_add_edge (G : Graph) (a b m : NodeId)
    (h : G.hasNode m) : (G.add_edge a b).hasNode m := by
  rw [hasNode_add_edge]; exact Or.inl h

theorem hasNode_add_node_self (G : Graph) (n : NodeId) (a : NAttr) :
    (G.add_node n a).hasNode n := by
  rw [hasNode_add_node]; exact Or.inr rfl

theorem lookupAttr_append_left (l1 l2 : List (NodeId × Option NAttr)) (m : NodeId)
    (h : ∃ p ∈ l1, p.1 = m) :
    lookupAttr (l1 ++ l2) m = lookupAttr l1 m := by
  induction l1 with
  | nil => simp at h
  | cons p rest ih =>
    by_cases hp : p.1 = m
    · simp [lookupAttr, hp]
    · simp only [List.cons_append, lookupAttr, if_neg hp]
      apply ih
      obtain ⟨q, hq, hqm⟩ := h
      rcases List.mem_cons.mp hq with rfl | hq
      · exact absurd hqm hp
      · exact ⟨q, hq, hqm⟩

theorem lookupAttr_map_overwrite (l : List (NodeId × Option NAttr)) (n : NodeId)
    (a : NAttr) (h : ∃ p ∈ l, p.1 = n) :
    lookupAttr (l.map (fun p => if p.1 = n then (n, some a) else p)) n = some a := by
  induction l with
  | nil => simp at h
  | cons p rest ih =>
    by_cases hp : p.1 = n
    · simp [lookupAttr, hp]
    · simp only [List.map_cons, if_neg hp, lookupAttr]
      apply ih
      obtain ⟨q, hq, hqn⟩ := h
      rcases List.mem_cons.mp hq with rfl | hq
      · exact absurd hqn hp
      · exact ⟨q, hq, hqn⟩

theorem lookupAttr_map_ne (l : List (NodeId × Option NAttr)) (n m : NodeId)
    (a : NAttr) (h : m ≠ n) :
    lookupAttr (l.map (fun p => if p.1 = n then (n, some a) else p)) m
      = lookupAttr l m := by
  induction l with
  | nil => rfl
  | cons p rest ih =>
    by_cases hp : p.1 = n
    · simp only [List.map_cons, if_pos hp, lookupAttr]
      rw [if_neg (fun hc : n = m => h hc.symm),
        if_neg (fun hc : p.1 = m => h (hp.symm.trans hc).symm)]
      exact ih
    · simp only [List.map_cons, if_neg hp, lookupAttr]
      by_cases hpm : p.1 = m
      · rw [if_pos hpm, if_pos hpm]
      · rw [if_neg hpm, if_neg hpm]
        exact ih

theorem lookupAttr_append_right (l1 l2 : List (NodeId × Option NAttr)) (m : NodeId)
    (h : ∀ p ∈ l1, p.1 ≠ m) :
    lookupAttr (l1 ++ l2) m = lookupAttr l2 m := by
  induction l1 with
  | nil => rfl
  | cons p rest ih =>
    simp only [List.cons_append, lookupAttr, if_neg (h p (by simp))]
    exact ih (fun q hq => h q (List.mem_cons_of_mem _ hq))

theorem lookupAttr_eq_none (l : List (NodeId × Option NAttr)) (m : NodeId)
    (h : ∀ p ∈ l, p.1 ≠ m) : lookupAttr l m = none := by
  induction l with
  | nil => rfl
  | cons p rest ih =>
    simp only [lookupAttr, if_neg (h p (by simp))]
    exact ih (fun q hq => h q (List.mem_cons_of_mem _ hq))

theorem attr_touch (G : Graph) (n m : NodeId) : (G.touch n).attr m = G.attr m := by
  unfold touch
  split
  · rfl
  · simp only [attr]
    by_cases hmem : ∃ p ∈ G.nodes, p.1 = m
    · exact lookupAttr_append_left _ _ _ hmem
    · push_neg at hmem
      rw [lookupAttr_append_right _ _ _ hmem, lookupAttr_eq_none _ _ hmem]
      simp only [lookupAttr]
      split <;> rfl

theorem attr_add_edge (G : Graph) (a b m : NodeId) :
    (G.add_edge a b).attr m = G.attr m := by
  have h : (G.add_edge a b).attr m = (((G.touch a).touch b)).attr m := by
    simp only [attr]
    rw [nodes_add_edge]
  rw [h, attr_touch, attr_touch]

theorem attr_add_node_self (G : Graph) (n : NodeId) (a : NAttr) :
    (G.add_node n a).attr n = some a := by
  unfold add_node
  split
  · rename_i h
    simp only [attr]
    exact lookupAttr_map_overwrite G.nodes n a h
  · rename_i h
    simp only [attr]
    rw [lookupAttr_append_right _ _ _ (fun p hp hpn => h ⟨p, hp, hpn⟩)]
    simp [lookupAttr]

theorem attr_add_node_ne (G : Graph) (n : NodeId) (a : NAttr) (m : NodeId)
    (h : m ≠ n) : (G.add_node n a).attr m = G.attr m := by
  unfold add_node
  split
  · simp only [attr]
    exact lookupAttr_map_ne G.nodes n m a h
  · simp only [attr]
    by_cases hmem : ∃ p ∈ G.nodes, p.1 = m
    · exact lookupAttr_append_left _ _ _ hmem
    · push_neg at hmem
      rw [lookupAttr_append_right _ _ _ hmem, lookupAttr_eq_none _ _ hmem]
      simp only [lookupAttr]
      rw [if_neg (fun hc : (n, some a).1 = m => h ((show (n, some a).1 = n from rfl) ▸ hc).symm)]

theorem incidentCount_add_node (G : Graph) (n : NodeId) (a : NAttr) (m : NodeId) :
    (G.add_node n a).incidentCount m = G.incidentCount m := by
  unfold incidentCount; rw [edges_add_node]

theorem edges_add_edge_subset (G : Graph) (a b : NodeId) :
    (G.add_edge a b).edges = G.edges ∨ (G.add_edge a b).edges = G.edges ++ [(a, b)] := by
  unfold add_edge withEdge
  split
  · left
    rw [edges_touch, edges_touch]
  · right
    show ((G.touch a).touch b).edges ++ [(a, b)] = G.edges ++ [(a, b)]
    rw [edges_touch, edges_touch]

theorem incidentCount_add_edge_ne (G : Graph) (a b m : NodeId)
    (h1 : a ≠ m) (h2 : b ≠ m) :
    (G.add_edge a b).incidentCount m = G.incidentCount m := by
  rcases edges_add_edge_subset G a b with h | h <;> unfold incidentCount <;> rw [h]
  rw [List.filter_append]
  simp [h1, h2]

theorem incidentCount_add_edge_new (G : Graph) (a b m : NodeId)
    (h : ¬ G.hasEdge a b) (hm : a = m ∨ b = m) :
    (G.add_edge a b).incidentCount m = G.incidentCount m + 1 := by
  unfold add_edge withEdge
  rw [if_neg (by rw [hasEdge_touch, hasEdge_touch]; exact h)]
  unfold incidentCount
  show (List.filter _ (((G.touch a).touch b).edges ++ [(a, b)])).length = _
  rw [edges_touch, edges_touch, List.filter_append]
  rcases hm with rfl | rfl <;> simp

theorem incidentCount_eq_zero (G : Graph) (m : NodeId)
    (h : ∀ e ∈ G.edges, e.1 ≠ m ∧ e.2 ≠ m) : G.incidentCount m = 0 := by
  unfold incidentCount
  rw [List.length_eq_zero, List.filter_eq_nil_iff]
  intro e he
  simp only [decide_eq_true_eq]
  rintro (h1 | h2)
  · exact (h e he).1 h1
  · exact (h e he).2 h2

theorem edges_mem_add_edge (G : Graph) (a b : NodeId) (e : NodeId × NodeId)
    (h : e ∈ (G.add_edge a b).edges) : e ∈ G.edges ∨ e = (a, b) := by
  rcases edges_add_edge_subset G a b with hs | hs <;> rw [hs] at h
  · exact Or.inl h
  · rcases List.mem_append.mp h with h | h
    · exact Or.inl h
    · simp only [List.mem_singleton] at h
      exact Or.inr h

theorem not_hasEdge_of_incident_zero (G : Graph) (m b : NodeId)
    (h : G.incidentCount m = 0) : ¬ G.hasEdge m b := by
  intro hedge
  obtain ⟨e, he, hor⟩ := hedge
  unfold incidentCount at h
  rw [List.length_eq_zero, List.filter_eq_nil_iff] at h
  have hp := h e he
  simp only [decide_eq_true_eq, not_or] at hp
  rcases hor with ⟨h1, _⟩ | ⟨_, h2⟩
  · exact hp.1 h1
  · exact hp.2 h2

end Graph

/-! ## Lemmas about the small loop helpers -/

theorem addEdgesFrom_hasEdge_mono (ns : List NodeId) (G : Graph) (b x y : NodeId)
    (h : G.hasEdge x y) : (addEdgesFrom G ns b).hasEdge x y := by
  induction ns generalizing G with
  | nil => exact h
  | cons n rest ih =>
    simp only [addEdgesFrom]
    exact ih _ (Graph.hasEdge_mono_add_edge _ _ _ _ _ h)

theorem addEdgesFrom_hasEdge_mem (ns : List NodeId) (G : Graph) (b x : NodeId)
    (hx : x ∈ ns) : (addEdgesFrom G ns b).hasEdge x b := by
  induction ns generalizing G with
  | nil => simp at hx
  | cons n rest ih =>
    simp only [addEdgesFrom]
    rcases List.mem_cons.mp hx with rfl | hx
    · exact addEdgesFrom_hasEdge_mono _ _ _ _ _ (Graph.hasEdge_add_edge_self _ _ _)
    · exact ih _ hx

theorem addEdgesFrom_attr (ns : List NodeId) (G : Graph) (b m : NodeId) :
    (addEdgesFrom G ns b).attr m = G.attr m := by
  induction ns generalizing G with
  | nil => rfl
  | cons n rest ih =>
    simp only [addEdgesFrom]
    rw [ih, Graph.attr_add_edge]

theorem addEdgesFrom_hasNode_mono (ns : List NodeId) (G : Graph) (b m : NodeId)
    (h : G.hasNode m) : (addEdgesFrom G ns b).hasNode m := by
  induction ns generalizing G with
  | nil => exact h
  | cons n rest ih =>
    simp only [addEdgesFrom]
    exact ih _ (Graph.hasNode_mono_add_edge _ _ _ _ h)

theorem addEdgesFrom_edges_mem (ns : List NodeId) (G : Graph) (b : NodeId)
    (e : NodeId × NodeId) (h : e ∈ (addEdgesFrom G ns b).edges) :
    e ∈ G.edges ∨ ∃ n ∈ ns, e = (n, b) := by
  induction ns generalizing G with
  | nil => exact Or.inl h
  | cons n rest ih =>
    simp only [addEdgesFrom] at h
    rcases ih _ h with h' | ⟨n', hn', rfl⟩
    · rcases Graph.edges_mem_add_edge _ _ _ _ h' with h'' | rfl
      · exact Or.inl h''
      · exact Or.inr ⟨n, by simp, rfl⟩
    · exact Or.inr ⟨n', List.mem_cons_of_mem _ hn', rfl⟩

theorem addEdgesFrom_incidentCount (ns : List NodeId) (G : Graph) (b m : NodeId)
    (hb : b ≠ m) (hns : ∀ n ∈ ns, n ≠ m) :
    (addEdgesFrom G ns b).incidentCount m = G.incidentCount m := by
  induction ns generalizing G with
  | nil => rfl
  | cons n rest ih =>
    simp only [addEdgesFrom]
    rw [ih _ (fun n' hn' => hns n' (List.mem_cons_of_mem _ hn')),
      Graph.incidentCount_add_edge_ne _ _ _ _ (hns n (by simp)) hb]

theorem edgesFromLast_hasEdge_mono (G : Graph) (l : LastVal) (b x y : NodeId)
    (h : G.hasEdge x y) : (edgesFromLast G l b).hasEdge x y := by
  cases l with
  | single a => exact Graph.hasEdge_mono_add_edge _ _ _ _ _ h
  | multi ns => exact addEdgesFrom_hasEdge_mono _ _ _ _ _ h

theorem edgesFromLast_hasEdge_mem (G : Graph) (l : LastVal) (b x : NodeId)
    (hx : x ∈ l.toList) : (edgesFromLast G l b).hasEdge x b := by
  cases l with
  | single a =>
    simp only [LastVal.toList, List.mem_singleton] at hx
    subst hx
    exact Graph.hasEdge_add_edge_self _ _ _
  | multi ns => exact addEdgesFrom_hasEdge_mem _ _ _ _ hx

theorem edgesFromLast_attr (G : Graph) (l : LastVal) (b m : NodeId) :
    (edgesFromLast G l b).attr m = G.attr m := by
  cases l with
  | single a => exact Graph.attr_add_edge _ _ _ _
  | multi ns => exact addEdgesFrom_attr _ _ _ _

theorem edgesFromLast_hasNode_mono (G : Graph) (l : LastVal) (b m : NodeId)
    (h : G.hasNode m) : (edgesFromLast G l b).hasNode m := by
  cases l with
  | single a => exact Graph.hasNode_mono_add_edge _ _ _ _ h
  | multi ns => exact addEdgesFrom_hasNode_mono _ _ _ _ h

theorem edgesFromLast_edges_mem (G : Graph) (l : LastVal) (b : NodeId)
    (e : NodeId × NodeId) (h : e ∈ (edgesFromLast G l b).edges) :
    e ∈ G.edges ∨ ∃ n ∈ l.toList, e = (n, b) := by
  cases l with
  | single a =>
    rcases Graph.edges_mem_add_edge _ _ _ _ h with h' | rfl
    · exact Or.inl h'
    · exact Or.inr ⟨a, by simp [LastVal.toList], rfl⟩
  | multi ns => exact addEdgesFrom_edges_mem _ _ _ _ h

theorem edgesFromLast_incidentCount (G : Graph) (l : LastVal) (b m : NodeId)
    (hb : b ≠ m) (hl : ∀ x ∈ l.toList, x ≠ m) :
    (edgesFromLast G l b).incidentCount m = G.incidentCount m := by
  cases l with
  | single a =>
    exact Graph.incidentCount_add_edge_ne _ _ _ _ (hl a (by simp [LastVal.toList])) hb
  | multi ns => exact addEdgesFrom_incidentCount _ _ _ _ hb hl

theorem addEdgeFromLast_ok (G G' : Graph) (l : LastVal) (b : NodeId)
    (h : addEdgeFromLast G l b = .ok G') :
    ∃ a, l = .single a ∧ G' = G.add_edge a b := by
  cases l with
  | single a =>
    simp only [addEdgeFromLast, Except.ok.injEq] at h
    exact ⟨a, rfl, h.symm⟩
  | multi ns => simp [addEdgeFromLast] at h

/-! ## C5: the router-path encoder's quantified-any tag mirror -/

/-- C5: in the router-path encoder, a one-or-more-quantified `any` atom
yields a node tagged `ZeroOrMore` and a zero-or-more-quantified `any` atom
yields a node tagged `OneOrMore` (the mirror image of the label-pattern
encoder's assignment); in each case an edge is added from every node of the
current `last` set and `last` advances to the new node. -/
theorem router_path_quantifier_mirror (net : Network) (G : Graph)
    (last : LastVal) (i : Nat) :
    (∃ G₁, netStep net G last i (.quantified .oneOrMore .anyA)
        = .ok (G₁, .single (.atomN 1 i)) ∧
      G₁.attr (.atomN 1 i) = some ⟨.ZeroOrMore, "atom:router:.*", none⟩ ∧
      ∀ x ∈ last.toList, G₁.hasEdge x (.atomN 1 i)) ∧
    (∃ G₂, netStep net G last i (.quantified .zeroOrMore .anyA)
        = .ok (G₂, .single (.atomN 1 i)) ∧
      G₂.attr (.atomN 1 i) = some ⟨.OneOrMore, "atom:router:.+", none⟩ ∧
      ∀ x ∈ last.toList, G₂.hasEdge x (.atomN 1 i)) := by
  constructor
  · refine ⟨_, rfl, ?_, ?_⟩
    · rw [edgesFromLast_attr]
      exact Graph.attr_add_node_self _ _ _
    · intro x hx
      exact edgesFromLast_hasEdge_mem _ _ _ _ hx
  · refine ⟨_, rfl, ?_, ?_⟩
    · rw [edgesFromLast_attr]
      exact Graph.attr_add_node_self _ _ _
    · intro x hx
      exact edgesFromLast_hasEdge_mem _ _ _ _ hx

/-! ## C8: zero-or-more `any` atoms in the label-pattern encoder -/

/-- C8 (counterexample): a zero-or-more-quantified `any` atom immediately
after a plain label atom does NOT create a ZeroOrMore node without error —
the encoder raises `Exception("Case not covered by code")` (the `lastatom`
check fires for every quantified atom, including quantified `any`). -/
theorem zero_any_after_plain_label_cex :
    build_labels_graph_repr cexStart (.single .queryN) (some patAZeroAny) 0
      = .error .caseNotCovered := by
  rfl

/-- C8 (amended): a zero-or-more-quantified `any` atom at any position
whose immediately preceding atom is NOT a plain label atom creates a
ZeroOrMore node, adds an edge from the current node to it, and advances the
current node to it, without error at that step. -/
theorem zero_or_more_any_step (pid : Nat) (G : Graph) (cur : NodeId)
    (rest : List PAtom) (i : Nat) (par : List NodeId) (la : Option PAtom)
    (bn : Bool) (h : isPlainSimpleA la = false) :
    ∃ G', buildLoop pid G (.single cur) (.quantified .zeroOrMore .anyA :: rest)
          i par la bn
        = buildLoop pid G' (.single (.atomN pid i)) rest (i + 1) par
            (some (.quantified .zeroOrMore .anyA)) bn ∧
      G'.attr (.atomN pid i) = some ⟨.ZeroOrMore, "atom:label:.*", none⟩ ∧
      G'.hasEdge cur (.atomN pid i) := by
  refine ⟨(G.add_node (.atomN pid i) ⟨.ZeroOrMore, "atom:label:.*", none⟩).add_edge
    cur (.atomN pid i), ?_, ?_, ?_⟩
  · simp only [buildLoop, h, Bool.false_eq_true, if_false, addEdgeFromLast]
  · rw [Graph.attr_add_edge]
    exact Graph.attr_add_node_self _ _ _
  · exact Graph.hasEdge_add_edge_self _ _ _

/-- C8 (witness for the amended statement). -/
theorem zero_or_more_any_step_witness :
    isPlainSimpleA none = false ∧
    ∃ G', buildLoop 0 cexStart (.single .queryN)
          [.quantified .zeroOrMore .anyA] 0 [] none false
        = buildLoop 0 G' (.single (.atomN 0 0)) [] 1 []
            (some (.quantified .zeroOrMore .anyA)) false ∧
      G'.attr (.atomN 0 0) = some ⟨.ZeroOrMore, "atom:label:.*", none⟩ ∧
      G'.hasEdge .queryN (.atomN 0 0) :=
  ⟨rfl, zero_or_more_any_step 0 cexStart .queryN [] 0 [] none false rfl⟩

/-! ## C2: placeholder nodes for unknown router names -/

/-- C2 (counterexample): for the unknown router name `X`, the standalone
placeholder node keyed by `"X"` is created with `ntype = Router`, not
`Label` as the claim states (source line 226 passes
`ntype=NodeType.Router`). -/
theorem unknown_router_placeholder_cex :
    graphSat (mpls2graph emptyNet qUnknownRouter 0)
      (fun G => decide (G.attr (.strN "X") = some ⟨.Router, "X", none⟩) &&
        decide (G.hasEdge (.atomN 1 0) (.strN "X"))) = true ∧
    NodeType.Router ≠ NodeType.Label := by
  exact ⟨rfl, fun h => NodeType.noConfusion h⟩

/-- C2 (amended): in the router-path encoder, a plain router-name atom
whose (stripped) name matches no router of the network model yields a
standalone **Router**-typed placeholder node keyed and labelled by that
name, edged to the atom's QueryAtom node; the step succeeds and `last`
advances to the atom node. -/
theorem unknown_router_placeholder (net : Network) (G : Graph) (last : LastVal)
    (i : Nat) (s : String) (hk : ¬ knownRouter net (pyStrip s)) :
    ∃ G₁, netStep net G last i (.plain (.simple s))
        = .ok (G₁, .single (.atomN 1 i)) ∧
      G₁.attr (.strN (pyStrip s)) = some ⟨.Router, pyStrip s, none⟩ ∧
      G₁.hasEdge (.atomN 1 i) (.strN (pyStrip s)) ∧
      G₁.attr (.atomN 1 i) = some ⟨.QueryAtom, "atom:router:" ++ pyStrip s, none⟩ := by
  have hk' : knownRouter net (pyStrip s) = false := by
    simpa using hk
  refine ⟨(edgesFromLast ((G.add_node (.atomN 1 i)
      ⟨.QueryAtom, "atom:router:" ++ pyStrip s, none⟩).add_node
      (.strN (pyStrip s)) ⟨.Router, pyStrip s, none⟩) last
      (.atomN 1 i)).add_edge (.atomN 1 i) (.strN (pyStrip s)),
    ?_, ?_, ?_, ?_⟩
  · simp only [netStep, hk', Bool.false_eq_true, if_false]
  · rw [Graph.attr_add_edge, edgesFromLast_attr]
    exact Graph.attr_add_node_self _ _ _
  · exact Graph.hasEdge_add_edge_self _ _ _
  · rw [Graph.attr_add_edge, edgesFromLast_attr,
      Graph.attr_add_node_ne _ _ _ _ (fun h => NodeId.noConfusion h)]
    exact Graph.attr_add_node_self _ _ _

/-- C2 (witness for the amended statement). -/
theorem unknown_router_placeholder_witness :
    ¬ knownRouter emptyNet (pyStrip "X") ∧
    ∃ G₁, netStep emptyNet Graph.empty (.single .queryN) 0 (.plain (.simple "X"))
        = .ok (G₁, .single (.atomN 1 0)) ∧
      G₁.attr (.strN (pyStrip "X")) = some ⟨.Router, pyStrip "X", none⟩ ∧
      G₁.hasEdge (.atomN 1 0) (.strN (pyStrip "X")) ∧
      G₁.attr (.atomN 1 0) = some ⟨.QueryAtom, "atom:router:" ++ pyStrip "X", none⟩ :=
  ⟨by decide, unknown_router_placeholder emptyNet Graph.empty (.single .queryN) 0 "X"
    (by decide)⟩

/-! ## C1: the `a+ b` branch structure of the label-pattern encoder -/

/-- C1 (counterexample): running the label-pattern encoder on the pattern
`a+ b` from the query node (labels registered) succeeds, but there is NO
edge between `a`'s node and `b`'s node — `b`'s node does not receive the
claimed edge from `a`'s node (both branch edges start at the preceding
node). -/
theorem constructing_plus_cex :
    resultSat (build_labels_graph_repr cexStart (.single .queryN) (some patAPlusB) 0)
      (fun x => !(decide (x.1.hasEdge (.atomN 0 0) (.atomN 0 1)))) = true := by
  rfl

/-- C1 (amended): for a constructing pattern `a+ b` the encoder adds two
edges out of the node preceding `a`: one into `a`'s node and one into `b`'s
node; each atom node is also edged to its Label node; the two nodes are
returned as the unmerged branch set `[a, b]`; and no edge between `a`'s
node and `b`'s node is created. -/
theorem constructing_plus_branch (pid : Nat) (G : Graph) (cur : NodeId)
    (la lb : String)
    (h1 : G.hasNode (.labelN (some (pyStrip la))))
    (h2 : G.hasNode (.labelN (some (pyStrip lb))))
    (hcur0 : cur ≠ .atomN pid 0) (hcur1 : cur ≠ .atomN pid 1)
    (hab : ¬ G.hasEdge (.atomN pid 0) (.atomN pid 1)) :
    ∃ G', build_labels_graph_repr G (.single cur)
        (some [.quantified .oneOrMore (.simple la), .plain (.simple lb)]) pid
      = .ok (G', .multi [.atomN pid 0, .atomN pid 1]) ∧
      G'.hasEdge cur (.atomN pid 0) ∧
      G'.hasEdge cur (.atomN pid 1) ∧
      G'.hasEdge (.atomN pid 0) (.labelN (some (pyStrip la))) ∧
      G'.hasEdge (.atomN pid 1) (.labelN (some (pyStrip lb))) ∧
      ¬ G'.hasEdge (.atomN pid 0) (.atomN pid 1) := by
  have h2' : (((G.add_node (.atomN pid 0)
      ⟨.QueryAtom, "atom:label:" ++ pyStrip la, none⟩).add_edge (.atomN pid 0)
      (.labelN (some (pyStrip la)))).add_edge cur (.atomN pid 0)).hasNode
      (.labelN (some (pyStrip lb))) :=
    Graph.hasNode_mono_add_edge _ _ _ _ (Graph.hasNode_mono_add_edge _ _ _ _
      (Graph.hasNode_mono_add_node _ _ _ _ h2))
  refine ⟨((((((G.add_node (.atomN pid 0)
      ⟨.QueryAtom, "atom:label:" ++ pyStrip la, none⟩).add_edge (.atomN pid 0)
      (.labelN (some (pyStrip la)))).add_edge cur (.atomN pid 0)).add_node
      (.atomN pid 1) ⟨.QueryAtom, "atom:label:" ++ pyStrip lb, none⟩).add_edge
      (.atomN pid 1) (.labelN (some (pyStrip lb)))).add_edge cur (.atomN pid 1)),
    ?_, ?_, ?_, ?_, ?_, ?_⟩
  · simp only [build_labels_graph_repr, buildLoop, isPlainSimpleA,
      atom_label_to_node, addEdgeFromLast, if_pos h1, if_pos h2',
      Bool.false_eq_true, if_false, if_true, List.length_append,
      List.length_cons, List.length_nil]
    rfl
  · exact Graph.hasEdge_mono_add_edge _ _ _ _ _
      (Graph.hasEdge_mono_add_edge _ _ _ _ _ (Graph.hasEdge_add_node _ _ _ _ _
      |>.mpr (Graph.hasEdge_add_edge_self _ _ _)))
  · exact Graph.hasEdge_add_edge_self _ _ _
  · exact Graph.hasEdge_mono_add_edge _ _ _ _ _
      (Graph.hasEdge_mono_add_edge _ _ _ _ _ (Graph.hasEdge_add_node _ _ _ _ _
      |>.mpr (Graph.hasEdge_mono_add_edge _ _ _ _ _
        (Graph.hasEdge_add_edge_self _ _ _))))
  · exact Graph.hasEdge_mono_add_edge _ _ _ _ _
      (Graph.hasEdge_add_edge_self _ _ _)
  · intro hc
    rw [Graph.hasEdge_add_edge_iff] at hc
    rcases hc with hc | ⟨ha, _⟩ | ⟨ha, hb⟩
    · rw [Graph.hasEdge_add_edge_iff, Graph.hasEdge_add_node] at hc
      rcases hc with hc | ⟨ha, hb⟩ | ⟨ha, hb⟩
      · rw [Graph.hasEdge_add_edge_iff] at hc
        rcases hc with hc | ⟨ha, hb⟩ | ⟨ha, hb⟩
        · rw [Graph.hasEdge_add_edge_iff, Graph.hasEdge_add_node] at hc
          rcases hc with hc | ⟨ha, hb⟩ | ⟨ha, hb⟩
          · exact hab hc
          · exact NodeId.noConfusion hb
          · exact NodeId.noConfusion ha
        · exact hcur0 ha.symm
        · exact hcur1 hb.symm
      · exact NodeId.noConfusion hb
      · exact NodeId.noConfusion ha
    · exact hcur0 ha.symm
    · exact hcur1 hb.symm

/-- C1 (witness for the amended statement). -/
theorem constructing_plus_branch_witness :
    cexStart.hasNode (.labelN (some (pyStrip "a"))) ∧
    cexStart.hasNode (.labelN (some (pyStrip "b"))) ∧
    NodeId.queryN ≠ NodeId.atomN 0 0 ∧ NodeId.queryN ≠ NodeId.atomN 0 1 ∧
    ¬ cexStart.hasEdge (.atomN 0 0) (.atomN 0 1) ∧
    ∃ G', build_labels_graph_repr cexStart (.single .queryN)
        (some [.quantified .oneOrMore (.simple "a"), .plain (.simple "b")]) 0
      = .ok (G', .multi [.atomN 0 0, .atomN 0 1]) ∧
      G'.hasEdge .queryN (.atomN 0 0) ∧
      G'.hasEdge .queryN (.atomN 0 1) ∧
      G'.hasEdge (.atomN 0 0) (.labelN (some (pyStrip "a"))) ∧
      G'.hasEdge (.atomN 0 1) (.labelN (some (pyStrip "b"))) ∧
      ¬ G'.hasEdge (.atomN 0 0) (.atomN 0 1) :=
  ⟨by decide, by decide, by decide, by decide, by decide,
    constructing_plus_branch 0 cexStart .queryN "a" "b" (by decide) (by decide)
      (by decide) (by decide) (by decide)⟩

/-! ## C7: a quantified atom after a plain label atom aborts construction -/

/-- Each iteration of the label-pattern loop either raises or proceeds to
the remaining atoms with some updated state (no atom is skipped). -/
theorem buildLoop_cons_step (pid : Nat) (G : Graph) (last : LastVal) (a : PAtom)
    (rest : List PAtom) (i : Nat) (par : List NodeId) (la : Option PAtom)
    (bn : Bool) :
    (∃ e, buildLoop pid G last (a :: rest) i par la bn = .error e) ∨
    (∃ G' last' par' bn', buildLoop pid G last (a :: rest) i par la bn
        = buildLoop pid G' last' rest (i + 1) par' (some a) bn') := by
  cases a with
  | quantified q a' =>
    by_cases hla : isPlainSimpleA la = true
    · left
      exact ⟨.caseNotCovered, by simp [buildLoop, hla]⟩
    · rw [Bool.not_eq_true] at hla
      cases q with
      | zeroOrMore =>
        cases a' with
        | anyA =>
          cases hadd : addEdgeFromLast
              (G.add_node (.atomN pid i) ⟨.ZeroOrMore, "atom:label:.*", none⟩)
              last (.atomN pid i) with
          | error e =>
            left
            exact ⟨e, by simp [buildLoop, hla, hadd]⟩
          | ok G2 =>
            right
            exact ⟨G2, .single (.atomN pid i), par, bn, by simp [buildLoop, hla, hadd]⟩
        | simple s =>
          left
          exact ⟨.unknownQuantifier, by simp [buildLoop, hla]⟩
      | oneOrMore =>
        cases a' with
        | anyA =>
          cases hadd : addEdgeFromLast
              (G.add_node (.atomN pid i) ⟨.OneOrMore, "atom:label:.+", none⟩)
              last (.atomN pid i) with
          | error e =>
            left
            exact ⟨e, by simp [buildLoop, hla, hadd]⟩
          | ok G2 =>
            right
            exact ⟨G2, .single (.atomN pid i), par, bn, by simp [buildLoop, hla, hadd]⟩
        | simple s =>
          cases hn : atom_label_to_node G (.atomN pid i) (.simple s) with
          | error e =>
            left
            exact ⟨e, by simp [buildLoop, hla, hn]⟩
          | ok p =>
            obtain ⟨G1, node⟩ := p
            cases hadd : addEdgeFromLast G1 last node with
            | error e =>
              left
              exact ⟨e, by simp [buildLoop, hla, hn, hadd]⟩
            | ok G2 =>
              right
              exact ⟨G2, last, par ++ [node], true, by simp [buildLoop, hla, hn, hadd]⟩
  | plain a' =>
    cases hn : atom_label_to_node G (.atomN pid i) a' with
    | error e =>
      left
      exact ⟨e, by simp [buildLoop, hn]⟩
    | ok p =>
      obtain ⟨G1, node⟩ := p
      cases bn with
      | true =>
        cases hadd : addEdgeFromLast G1 last node with
        | error e =>
          left
          exact ⟨e, by simp [buildLoop, hn, hadd]⟩
        | ok G2 =>
          right
          exact ⟨G2, last, par ++ [node], false, by simp [buildLoop, hn, hadd]⟩
      | false =>
        by_cases hpar : par.length > 0
        · right
          exact ⟨addEdgesFrom G1 par node, .single node, [], false,
            by simp [buildLoop, hn, hpar]⟩
        · cases hadd : addEdgeFromLast G1 last node with
          | error e =>
            left
            exact ⟨e, by simp [buildLoop, hn, hpar, hadd]⟩
          | ok G2 =>
            right
            exact ⟨G2, .single node, [], false, by simp [buildLoop, hn, hpar, hadd]⟩

/-- A one-or-more-quantified non-`any` atom that sits immediately after a
plain label atom makes the whole loop fail, from any state. -/
theorem buildLoop_pair_errors (pid : Nat) (l1 : List PAtom) (s t : String)
    (l2 : List PAtom) :
    ∀ G last i par la bn,
      ∃ e, buildLoop pid G last
        (l1 ++ [.plain (.simple s), .quantified .oneOrMore (.simple t)] ++ l2)
        i par la bn = .error e := by
  have key : ∀ G2 last2 i2 par2 bn2, buildLoop pid G2 last2
      (.quantified .oneOrMore (.simple t) :: l2) i2 par2
      (some (.plain (.simple s))) bn2 = .error .caseNotCovered := by
    intro G2 last2 i2 par2 bn2
    simp [buildLoop, isPlainSimpleA]
  induction l1 with
  | nil =>
    intro G last i par la bn
    simp only [List.nil_append, List.cons_append]
    rcases buildLoop_cons_step pid G last (.plain (.simple s))
        (.quantified .oneOrMore (.simple t) :: l2) i par la bn with
      ⟨e, he⟩ | ⟨G', last', par', bn', heq⟩
    · exact ⟨e, he⟩
    · rw [heq, key]
      exact ⟨.caseNotCovered, rfl⟩
  | cons a l1' ih =>
    intro G last i par la bn
    simp only [List.cons_append]
    rcases buildLoop_cons_step pid G last a
        (l1' ++ [.plain (.simple s), .quantified .oneOrMore (.simple t)] ++ l2)
        i par la bn with ⟨e, he⟩ | ⟨G', last', par', bn', heq⟩
    · exact ⟨e, he⟩
    · rw [heq]
      exact ih G' last' (i + 1) par' (some a) bn'

/-- C7: in the label-pattern encoder, a one-or-more-quantified non-`any`
atom immediately following a plain label atom raises an unrecoverable
error, whatever surrounds it: the encoder itself fails from any start
state, and when such a pattern is the query's constructing pattern the
whole `mpls2graph` construction for that (network, query) pair aborts with
an error — no atom is silently dropped. -/
theorem quantified_after_plain_label_aborts (net : Network) (query : QueryAst)
    (k : Int) (l1 l2 : List PAtom) (s t : String)
    (hc : query.constr = some (l1 ++
      [.plain (.simple s), .quantified .oneOrMore (.simple t)] ++ l2)) :
    (∀ G last, ∃ e, build_labels_graph_repr G last query.constr 0 = .error e) ∧
    (∃ e, mpls2graph net query k = .error e) := by
  have hb : ∀ G last, ∃ e, build_labels_graph_repr G last query.constr 0
      = .error e := by
    intro G last
    rw [hc]
    simp only [build_labels_graph_repr]
    exact buildLoop_pair_errors 0 l1 s t l2 G last 0 [] none false
  refine ⟨hb, ?_⟩
  unfold mpls2graph
  cases htab : tablesLoop (baseGraph net) 0 net.routingTables with
  | error e =>
    simp only [htab]
    exact ⟨e, rfl⟩
  | ok Gf =>
    obtain ⟨e, he⟩ := hb (((ensure_label_nodes (ensure_label_nodes Gf query.constr)
      query.destr)).add_node .queryN ⟨.Query, "query", some k⟩) (.single .queryN)
    simp only [htab, he]
    exact ⟨e, rfl⟩

/-- C7 (witness). -/
theorem quantified_after_plain_label_aborts_witness :
    qPlainThenPlus.constr = some ([] ++
      [.plain (.simple "a"), .quantified .oneOrMore (.simple "a")] ++ []) ∧
    ((∀ G last, ∃ e, build_labels_graph_repr G last qPlainThenPlus.constr 0
        = .error e) ∧
      (∃ e, mpls2graph emptyNet qPlainThenPlus 0 = .error e)) :=
  ⟨by simp [qPlainThenPlus],
    quantified_after_plain_label_aborts emptyNet qPlainThenPlus 0 [] [] "a" "a"
      (by simp [qPlainThenPlus])⟩

/-! ## Facts about single router-path steps and the router-path loop -/

/-- Inversion of a successful `netStep`: the new `last` is the singleton
atom node, every node of the old `last` is edged to it, the graph only
grows, string-node attributes other than a re-keyed unknown-router name are
untouched, and no edge incident to the query node is added. -/
theorem netStep_ok_facts (net : Network) (G : Graph) (last : LastVal) (i : Nat)
    (a : PAtom) (G₁ : Graph) (l₁ : LastVal)
    (h : netStep net G last i a = .ok (G₁, l₁)) :
    l₁ = .single (.atomN 1 i) ∧
    (∀ x ∈ last.toList, G₁.hasEdge x (.atomN 1 i)) ∧
    (∀ x y, G.hasEdge x y → G₁.hasEdge x y) ∧
    (∀ m, G.hasNode m → G₁.hasNode m) ∧
    (¬ namesEmptyUnknown net a → G₁.attr (.strN "empty") = G.attr (.strN "empty")) ∧
    ((∀ x ∈ last.toList, x ≠ .queryN) →
      G₁.incidentCount .queryN = G.incidentCount .queryN) := by
  cases a with
  | plain a' =>
    cases a' with
    | simple s =>
      cases hk : knownRouter net (pyStrip s) with
      | true =>
        simp only [netStep, hk, if_true, Except.ok.injEq, Prod.mk.injEq] at h
        obtain ⟨hG, hl⟩ := h
        subst hG hl
        refine ⟨rfl, ?_, ?_, ?_, ?_, ?_⟩
        · intro x hx
          exact Graph.hasEdge_mono_add_edge _ _ _ _ _
            (edgesFromLast_hasEdge_mem _ _ _ _ hx)
        · intro x y hxy
          exact Graph.hasEdge_mono_add_edge _ _ _ _ _
            (edgesFromLast_hasEdge_mono _ _ _ _ _
              (Graph.hasEdge_add_node _ _ _ _ _ |>.mpr hxy))
        · intro m hm
          exact Graph.hasNode_mono_add_edge _ _ _ _
            (edgesFromLast_hasNode_mono _ _ _ _
              (Graph.hasNode_mono_add_node _ _ _ _ hm))
        · intro _
          rw [Graph.attr_add_edge, edgesFromLast_attr,
            Graph.attr_add_node_ne _ _ _ _ (fun hc => NodeId.noConfusion hc)]
        · intro hl
          rw [Graph.incidentCount_add_edge_ne _ _ _ _
              (fun hc => NodeId.noConfusion hc) (fun hc => NodeId.noConfusion hc),
            edgesFromLast_incidentCount _ _ _ _
              (fun hc => NodeId.noConfusion hc) hl,
            Graph.incidentCount_add_node]
      | false =>
        simp only [netStep, hk, Bool.false_eq_true, if_false, Except.ok.injEq,
          Prod.mk.injEq] at h
        obtain ⟨hG, hl⟩ := h
        subst hG hl
        refine ⟨rfl, ?_, ?_, ?_, ?_, ?_⟩
        · intro x hx
          exact Graph.hasEdge_mono_add_edge _ _ _ _ _
            (edgesFromLast_hasEdge_mem _ _ _ _ hx)
        · intro x y hxy
          exact Graph.hasEdge_mono_add_edge _ _ _ _ _
            (edgesFromLast_hasEdge_mono _ _ _ _ _
              (Graph.hasEdge_add_node _ _ _ _ _ |>.mpr
                (Graph.hasEdge_add_node _ _ _ _ _ |>.mpr hxy)))
        · intro m hm
          exact Graph.hasNode_mono_add_edge _ _ _ _
            (edgesFromLast_hasNode_mono _ _ _ _
              (Graph.hasNode_mono_add_node _ _ _ _
                (Graph.hasNode_mono_add_node _ _ _ _ hm)))
        · intro hne
          have hs : pyStrip s ≠ "empty" := by
            intro hc
            exact hne ⟨hc, by rw [hc] at hk; simp [hk]⟩
          have hne' : NodeId.strN "empty" ≠ NodeId.strN (pyStrip s) := by
            intro hc
            injection hc with hceq
            exact hs hceq.symm
          rw [Graph.attr_add_edge, edgesFromLast_attr,
            Graph.attr_add_node_ne _ _ _ _ hne',
            Graph.attr_add_node_ne _ _ _ _ (fun hc => NodeId.noConfusion hc)]
        · intro hl
          rw [Graph.incidentCount_add_edge_ne _ _ _ _
              (fun hc => NodeId.noConfusion hc) (fun hc => NodeId.noConfusion hc),
            edgesFromLast_incidentCount _ _ _ _
              (fun hc => NodeId.noConfusion hc) hl,
            Graph.incidentCount_add_node, Graph.incidentCount_add_node]
    | anyA =>
      simp only [netStep, Except.ok.injEq, Prod.mk.injEq] at h
      obtain ⟨hG, hl⟩ := h
      subst hG hl
      refine ⟨rfl, ?_, ?_, ?_, ?_, ?_⟩
      · intro x hx
        exact edgesFromLast_hasEdge_mem _ _ _ _ hx
      · intro x y hxy
        exact edgesFromLast_hasEdge_mono _ _ _ _ _
          (Graph.hasEdge_add_node _ _ _ _ _ |>.mpr hxy)
      · intro m hm
        exact edgesFromLast_hasNode_mono _ _ _ _
          (Graph.hasNode_mono_add_node _ _ _ _ hm)
      · intro _
        rw [edgesFromLast_attr,
          Graph.attr_add_node_ne _ _ _ _ (fun hc => NodeId.noConfusion hc)]
      · intro hl
        rw [edgesFromLast_incidentCount _ _ _ _
            (fun hc => NodeId.noConfusion hc) hl,
          Graph.incidentCount_add_node]
  | quantified q a' =>
    cases q <;> cases a' <;>
      simp only [netStep, Except.ok.injEq, Prod.mk.injEq, reduceCtorEq] at h <;>
      obtain ⟨hG, hl⟩ := h <;> subst hG hl <;>
      refine ⟨rfl, ?_, ?_, ?_, ?_, ?_⟩ <;>
      first
      | (intro x hx
         exact edgesFromLast_hasEdge_mem _ _ _ _ hx)
      | (intro x y hxy
         exact edgesFromLast_hasEdge_mono _ _ _ _ _
           (Graph.hasEdge_add_node _ _ _ _ _ |>.mpr hxy))
      | (intro m hm
         exact edgesFromLast_hasNode_mono _ _ _ _
           (Graph.hasNode_mono_add_node _ _ _ _ hm))
      | (intro _
         rw [edgesFromLast_attr,
           Graph.attr_add_node_ne _ _ _ _ (fun hc => NodeId.noConfusion hc)])
      | (intro hl
         rw [edgesFromLast_incidentCount _ _ _ _
             (fun hc => NodeId.noConfusion hc) hl,
           Graph.incidentCount_add_node])

/-- Inversion of a successful run of the whole router-path loop. -/
theorem netLoop_ok_facts (net : Network) (atoms : List PAtom) :
    ∀ G last i G' l', netLoop net G last i atoms = .ok (G', l') →
      (atoms = [] → G' = G ∧ l' = last) ∧
      (atoms ≠ [] → ∃ m, l' = .single m) ∧
      (∀ x y, G.hasEdge x y → G'.hasEdge x y) ∧
      (∀ m, G.hasNode m → G'.hasNode m) ∧
      (¬ overwritesEmptyNode net atoms →
        G'.attr (.strN "empty") = G.attr (.strN "empty")) ∧
      ((∀ x ∈ last.toList, x ≠ .queryN) →
        G'.incidentCount .queryN = G.incidentCount .queryN ∧
          ∀ x ∈ l'.toList, x ≠ .queryN) := by
  induction atoms with
  | nil =>
    intro G last i G' l' h
    simp only [netLoop, Except.ok.injEq, Prod.mk.injEq] at h
    obtain ⟨hG, hl⟩ := h
    subst hG hl
    exact ⟨fun _ => ⟨rfl, rfl⟩, fun hne => absurd rfl hne,
      fun _ _ hxy => hxy, fun _ hm => hm, fun _ => rfl,
      fun hl => ⟨rfl, hl⟩⟩
  | cons a rest ih =>
    intro G last i G' l' h
    simp only [netLoop] at h
    cases hstep : netStep net G last i a with
    | error e => rw [hstep] at h; exact absurd h (by simp)
    | ok p =>
      obtain ⟨G₁, l₁⟩ := p
      rw [hstep] at h
      obtain ⟨hl₁, hedges, hmonoE, hmonoN, hattr, hcount⟩ :=
        netStep_ok_facts net G last i a G₁ l₁ hstep
      obtain ⟨_, hsing, hmonoE', hmonoN', hattr', hcount'⟩ :=
        ih G₁ l₁ (i + 1) G' l' h
      refine ⟨fun hc => List.noConfusion hc, ?_, ?_, ?_, ?_, ?_⟩
      · intro _
        cases rest with
        | nil =>
          simp only [netLoop, Except.ok.injEq, Prod.mk.injEq] at h
          exact ⟨.atomN 1 i, by rw [← h.2, hl₁]⟩
        | cons b rest' => exact hsing (by simp)
      · exact fun x y hxy => hmonoE' x y (hmonoE x y hxy)
      · exact fun m hm => hmonoN' m (hmonoN m hm)
      · intro hov
        rw [hattr' (fun hc => hov (by
            obtain ⟨a', ha', hne⟩ := hc
            exact ⟨a', List.mem_cons_of_mem _ ha', hne⟩)),
          hattr (fun hc => hov ⟨a, by simp, hc⟩)]
      · intro hl
        subst hl₁
        have hl1 : ∀ x ∈ (LastVal.single (NodeId.atomN 1 i)).toList, x ≠ .queryN := by
          intro x hx
          simp only [LastVal.toList, List.mem_singleton] at hx
          subst hx
          exact fun hc => NodeId.noConfusion hc
        obtain ⟨hc1, hc2⟩ := hcount' hl1
        exact ⟨by rw [hc1, hcount hl], hc2⟩

/-- C10: after a non-empty router-path pattern the `last` value handed to
the destructing-pattern encoder is a single node; the first router-path
atom absorbs an edge from every node of the (possibly multi-node) value
left by the constructing pattern. -/
theorem router_path_singleton_last (net : Network) (G : Graph) (last : LastVal)
    (i : Nat) (a : PAtom) (rest : List PAtom) (G' : Graph) (l' : LastVal)
    (h : netLoop net G last i (a :: rest) = .ok (G', l')) :
    (∃ m, l' = .single m) ∧ ∀ x ∈ last.toList, G'.hasEdge x (.atomN 1 i) := by
  have hfacts := netLoop_ok_facts net (a :: rest) G last i G' l' h
  refine ⟨hfacts.2.1 (by simp), ?_⟩
  simp only [netLoop] at h
  cases hstep : netStep net G last i a with
  | error e => rw [hstep] at h; exact absurd h (by simp)
  | ok p =>
    obtain ⟨G₁, l₁⟩ := p
    rw [hstep] at h
    obtain ⟨hl₁, hedges, _, _, _, _⟩ := netStep_ok_facts net G last i a G₁ l₁ hstep
    obtain ⟨_, _, hmonoE', _, _, _⟩ := netLoop_ok_facts net rest G₁ l₁ (i + 1) G' l' h
    exact fun x hx => hmonoE' _ _ (hedges x hx)

/-- C10 (witness): a two-node branch set left by the constructing pattern
is absorbed by the first router-path atom. -/
theorem router_path_singleton_last_witness :
    netLoop emptyNet cexStart (.multi [.atomN 0 0, .atomN 0 1]) 0
        [.plain .anyA] = .ok
          ((edgesFromLast (cexStart.add_node (.atomN 1 0) ⟨.Any, "router:.", none⟩)
            (.multi [.atomN 0 0, .atomN 0 1]) (.atomN 1 0)),
           .single (.atomN 1 0)) ∧
    ((∃ m, (LastVal.single (NodeId.atomN 1 0)) = .single m) ∧
      ∀ x ∈ (LastVal.multi [NodeId.atomN 0 0, .atomN 0 1]).toList,
        (edgesFromLast (cexStart.add_node (.atomN 1 0) ⟨.Any, "router:.", none⟩)
          (.multi [.atomN 0 0, .atomN 0 1]) (.atomN 1 0)).hasEdge x (.atomN 1 0)) :=
  ⟨rfl, router_path_singleton_last emptyNet cexStart
    (.multi [.atomN 0 0, .atomN 0 1]) 0 (.plain .anyA) [] _ _ rfl⟩

/-! ## C6: labels are registered before the pattern encoders run -/

theorem registerLabel_hasNode_self (G : Graph) (s : String) :
    (registerLabel G s).hasNode (.labelN (some (pyStrip s))) := by
  unfold registerLabel
  split
  · assumption
  · exact Graph.hasNode_add_node_self _ _ _

theorem registerLabel_hasNode_mono (G : Graph) (s : String) (m : NodeId)
    (h : G.hasNode m) : (registerLabel G s).hasNode m := by
  unfold registerLabel
  split
  · exact h
  · exact Graph.hasNode_mono_add_node _ _ _ _ h

theorem ensureLoop_hasNode_mono (atoms : List PAtom) :
    ∀ G m, G.hasNode m → (ensureLoop G atoms).hasNode m := by
  induction atoms with
  | nil => exact fun G m h => h
  | cons a rest ih =>
    intro G m h
    cases a with
    | plain a' =>
      cases a' with
      | simple s => exact ih _ _ (registerLabel_hasNode_mono _ _ _ h)
      | anyA => exact ih _ _ h
    | quantified q a' =>
      cases a' with
      | simple s => exact ih _ _ (registerLabel_hasNode_mono _ _ _ h)
      | anyA => exact ih _ _ h

theorem ensureLoop_registers (atoms : List PAtom) :
    ∀ G, labelsRegistered (ensureLoop G atoms) atoms := by
  induction atoms with
  | nil => intro G s hs; simp [patternLabels] at hs
  | cons a rest ih =>
    intro G s hs
    cases a with
    | plain a' =>
      cases a' with
      | simple t =>
        simp only [patternLabels, List.mem_cons] at hs
        rcases hs with rfl | hs
        · exact ensureLoop_hasNode_mono rest _ _ (registerLabel_hasNode_self G s)
        · exact ih (registerLabel G t) s hs
      | anyA => exact ih G s hs
    | quantified q a' =>
      cases a' with
      | simple t =>
        simp only [patternLabels, List.mem_cons] at hs
        rcases hs with rfl | hs
        · exact ensureLoop_hasNode_mono rest _ _ (registerLabel_hasNode_self G s)
        · exact ih (registerLabel G t) s hs
      | anyA => exact ih G s hs

theorem ensure_label_nodes_hasNode_mono (G : Graph) (st : Option (List PAtom))
    (m : NodeId) (h : G.hasNode m) : (ensure_label_nodes G st).hasNode m := by
  cases st with
  | none => exact h
  | some atoms => exact ensureLoop_hasNode_mono atoms G m h

/-- `atom_label_to_node` succeeds whenever the referenced label (if any) is
registered, and the produced graph only extends the input. -/
theorem atom_label_to_node_ok_of (G : Graph) (nid : NodeId) (a : Atom)
    (h : ∀ s, a = .simple s → G.hasNode (.labelN (some (pyStrip s)))) :
    ∃ G₁, atom_label_to_node G nid a = .ok (G₁, nid) ∧
      ∀ m, G.hasNode m → G₁.hasNode m := by
  cases a with
  | simple s =>
    refine ⟨(G.add_node nid ⟨.QueryAtom, "atom:label:" ++ pyStrip s, none⟩).add_edge
      nid (.labelN (some (pyStrip s))), ?_, ?_⟩
    · simp only [atom_label_to_node, if_pos (h s rfl)]
    · intro m hm
      exact Graph.hasNode_mono_add_edge _ _ _ _
        (Graph.hasNode_mono_add_node _ _ _ _ hm)
  | anyA =>
    exact ⟨G.add_node nid ⟨.Label, "atom:any", none⟩, rfl,
      fun m hm => Graph.hasNode_mono_add_node _ _ _ _ hm⟩

/-- With every referenced label registered, the label-pattern loop never
fails with the registration assert. -/
theorem buildLoop_never_assert (pid : Nat) (atoms : List PAtom) :
    ∀ G last i par la bn, labelsRegistered G atoms →
      buildLoop pid G last atoms i par la bn ≠ .error .labelNotRegistered := by
  induction atoms with
  | nil =>
    intro G last i par la bn _ hc
    simp only [buildLoop] at hc
    split at hc <;> exact Except.noConfusion hc
  | cons a rest ih =>
    intro G last i par la bn hreg hc
    cases a with
    | quantified q a' =>
      by_cases hla : isPlainSimpleA la = true
      · simp only [buildLoop, hla, if_true] at hc
        exact Err.noConfusion (Except.error.inj hc)
      · rw [Bool.not_eq_true] at hla
        cases q with
        | zeroOrMore =>
          cases a' with
          | anyA =>
            simp only [buildLoop, hla, Bool.false_eq_true, if_false] at hc
            cases hadd : addEdgeFromLast
                (G.add_node (.atomN pid i) ⟨.ZeroOrMore, "atom:label:.*", none⟩)
                last (.atomN pid i) with
            | error e =>
              rw [hadd] at hc
              cases last with
              | single x => simp [addEdgeFromLast] at hadd
              | multi ns =>
                simp only [addEdgeFromLast, Except.error.injEq] at hadd
                subst hadd
                exact Err.noConfusion (Except.error.inj hc)
            | ok G2 =>
              rw [hadd] at hc
              refine ih G2 _ (i + 1) par (some _) bn ?_ hc
              intro s hs
              obtain ⟨x, hx, rfl⟩ := addEdgeFromLast_ok _ _ _ _ hadd
              exact Graph.hasNode_mono_add_edge _ _ _ _
                (Graph.hasNode_mono_add_node _ _ _ _ (hreg s hs))
          | simple t =>
            simp only [buildLoop, hla, Bool.false_eq_true, if_false] at hc
            exact Err.noConfusion (Except.error.inj hc)
        | oneOrMore =>
          cases a' with
          | anyA =>
            simp only [buildLoop, hla, Bool.false_eq_true, if_false] at hc
            cases hadd : addEdgeFromLast
                (G.add_node (.atomN pid i) ⟨.OneOrMore, "atom:label:.+", none⟩)
                last (.atomN pid i) with
            | error e =>
              rw [hadd] at hc
              cases last with
              | single x => simp [addEdgeFromLast] at hadd
              | multi ns =>
                simp only [addEdgeFromLast, Except.error.injEq] at hadd
                subst hadd
                exact Err.noConfusion (Except.error.inj hc)
            | ok G2 =>
              rw [hadd] at hc
              refine ih G2 _ (i + 1) par (some _) bn ?_ hc
              intro s hs
              obtain ⟨x, hx, rfl⟩ := addEdgeFromLast_ok _ _ _ _ hadd
              exact Graph.hasNode_mono_add_edge _ _ _ _
                (Graph.hasNode_mono_add_node _ _ _ _ (hreg s hs))
          | simple t =>
            obtain ⟨G1, heq, hmono⟩ := atom_label_to_node_ok_of G (.atomN pid i)
              (.simple t) (fun s hs => hreg s (by
                simp only [patternLabels, List.mem_cons]
                exact Or.inl (Atom.simple.inj hs).symm))
            simp only [buildLoop, hla, Bool.false_eq_true, if_false, heq] at hc
            cases hadd : addEdgeFromLast G1 last (.atomN pid i) with
            | error e =>
              rw [hadd] at hc
              cases last with
              | single x => simp [addEdgeFromLast] at hadd
              | multi ns =>
                simp only [addEdgeFromLast, Except.error.injEq] at hadd
                subst hadd
                exact Err.noConfusion (Except.error.inj hc)
            | ok G2 =>
              rw [hadd] at hc
              refine ih G2 last (i + 1) (par ++ [.atomN pid i]) (some _) true ?_ hc
              intro s hs
              obtain ⟨x, hx, rfl⟩ := addEdgeFromLast_ok _ _ _ _ hadd
              exact Graph.hasNode_mono_add_edge _ _ _ _
                (hmono _ (hreg s (by
                  simp only [patternLabels, List.mem_cons]
                  exact Or.inr hs)))
    | plain a' =>
      have hreg' : ∀ s, a' = .simple s → G.hasNode (.labelN (some (pyStrip s))) := by
        intro s hs
        subst hs
        exact hreg s (by simp [patternLabels])
      obtain ⟨G1, heq, hmono⟩ := atom_label_to_node_ok_of G (.atomN pid i) a' hreg'
      have hrest : ∀ (G₂ : Graph), (∀ m, G1.hasNode m → G₂.hasNode m) →
          labelsRegistered G₂ rest := by
        intro G₂ hm s hs
        refine hm _ (hmono _ (hreg s ?_))
        cases a' with
        | simple t => simp only [patternLabels, List.mem_cons]; exact Or.inr hs
        | anyA => simpa [patternLabels] using hs
      simp only [buildLoop, heq] at hc
      cases bn with
      | true =>
        simp only [eq_self_iff_true, if_true] at hc
        cases hadd : addEdgeFromLast G1 last (.atomN pid i) with
        | error e =>
          rw [hadd] at hc
          cases last with
          | single x => simp [addEdgeFromLast] at hadd
          | multi ns =>
            simp only [addEdgeFromLast, Except.error.injEq] at hadd
            subst hadd
            exact Err.noConfusion (Except.error.inj hc)
        | ok G2 =>
          rw [hadd] at hc
          refine ih G2 last (i + 1) (par ++ [.atomN pid i]) (some _) false ?_ hc
          obtain ⟨x, hx, rfl⟩ := addEdgeFromLast_ok _ _ _ _ hadd
          exact hrest _ (fun m hm => Graph.hasNode_mono_add_edge _ _ _ _ hm)
      | false =>
        simp only [Bool.false_eq_true, if_false] at hc
        by_cases hpar : par.length > 0
        · simp only [hpar, if_true] at hc
          refine ih _ _ (i + 1) [] (some _) false ?_ hc
          exact hrest _ (fun m hm => addEdgesFrom_hasNode_mono _ _ _ _ hm)
        · simp only [hpar, if_false] at hc
          cases hadd : addEdgeFromLast G1 last (.atomN pid i) with
          | error e =>
            rw [hadd] at hc
            cases last with
            | single x => simp [addEdgeFromLast] at hadd
            | multi ns =>
              simp only [addEdgeFromLast, Except.error.injEq] at hadd
              subst hadd
              exact Err.noConfusion (Except.error.inj hc)
          | ok G2 =>
            rw [hadd] at hc
            refine ih G2 _ (i + 1) [] (some _) false ?_ hc
            obtain ⟨x, hx, rfl⟩ := addEdgeFromLast_ok _ _ _ _ hadd
            exact hrest _ (fun m hm => Graph.hasNode_mono_add_edge _ _ _ _ hm)

theorem build_labels_graph_repr_never_assert (G : Graph) (last : LastVal)
    (st : Option (List PAtom)) (pid : Nat)
    (h : ∀ atoms, st = some atoms → labelsRegistered G atoms) :
    build_labels_graph_repr G last st pid ≠ .error .labelNotRegistered := by
  cases st with
  | none =>
    intro hc
    simp only [build_labels_graph_repr] at hc
    cases hadd : addEdgeFromLast
        (G.add_node (.strN "empty") ⟨.Label, "label:empty", none⟩) last
        (.strN "empty") with
    | error e =>
      rw [hadd] at hc
      cases last with
      | single x => simp [addEdgeFromLast] at hadd
      | multi ns =>
        simp only [addEdgeFromLast, Except.error.injEq] at hadd
        subst hadd
        exact Err.noConfusion (Except.error.inj hc)
    | ok G2 =>
      rw [hadd] at hc
      exact Except.noConfusion hc
  | some atoms =>
    exact buildLoop_never_assert pid atoms G last 0 [] none false (h atoms rfl)

theorem netStep_never_assert (net : Network) (G : Graph) (last : LastVal)
    (i : Nat) (a : PAtom) :
    netStep net G last i a ≠ .error .labelNotRegistered := by
  intro hc
  cases a with
  | plain a' =>
    cases a' with
    | simple s =>
      cases hk : knownRouter net (pyStrip s) with
      | true => simp [netStep, hk] at hc
      | false => simp [netStep, hk] at hc
    | anyA => simp [netStep] at hc
  | quantified q a' =>
    cases q <;> cases a' <;> simp [netStep] at hc

theorem netLoop_never_assert (net : Network) (atoms : List PAtom) :
    ∀ G last i, netLoop net G last i atoms ≠ .error .labelNotRegistered := by
  induction atoms with
  | nil => intro G last i hc; simp [netLoop] at hc
  | cons a rest ih =>
    intro G last i hc
    simp only [netLoop] at hc
    cases hstep : netStep net G last i a with
    | error e =>
      rw [hstep] at hc
      rw [Except.error.inj hc] at hstep
      exact netStep_never_assert net G last i a hstep
    | ok p =>
      rw [hstep] at hc
      exact ih p.1 p.2 (i + 1) hc

/-- Inversion of a successful `atom_label_to_node`. -/
theorem atom_label_to_node_ok_facts (G : Graph) (nid : NodeId) (a : Atom)
    (G₁ : Graph) (node : NodeId)
    (h : atom_label_to_node G nid a = .ok (G₁, node)) :
    node = nid ∧
    (∀ x y, G.hasEdge x y → G₁.hasEdge x y) ∧
    (∀ m, G.hasNode m → G₁.hasNode m) ∧
    (∀ m, m ≠ nid → G₁.attr m = G.attr m) ∧
    (nid ≠ .queryN → G₁.incidentCount .queryN = G.incidentCount .queryN) := by
  cases a with
  | simple s =>
    simp only [atom_label_to_node] at h
    split at h
    · simp only [Except.ok.injEq, Prod.mk.injEq] at h
      obtain ⟨hG, hn⟩ := h
      subst hG hn
      refine ⟨rfl, ?_, ?_, ?_, ?_⟩
      · intro x y hxy
        exact Graph.hasEdge_mono_add_edge _ _ _ _ _
          (Graph.hasEdge_add_node _ _ _ _ _ |>.mpr hxy)
      · intro m hm
        exact Graph.hasNode_mono_add_edge _ _ _ _
          (Graph.hasNode_mono_add_node _ _ _ _ hm)
      · intro m hm
        rw [Graph.attr_add_edge, Graph.attr_add_node_ne _ _ _ _ hm]
      · intro hq
        rw [Graph.incidentCount_add_edge_ne _ _ _ _
            (fun hc => hq hc) (fun hc => NodeId.noConfusion hc),
          Graph.incidentCount_add_node]
    · exact Except.noConfusion h
  | anyA =>
    simp only [atom_label_to_node, Except.ok.injEq, Prod.mk.injEq] at h
    obtain ⟨hG, hn⟩ := h
    subst hG hn
    refine ⟨rfl, ?_, ?_, ?_, ?_⟩
    · intro x y hxy
      exact Graph.hasEdge_add_node _ _ _ _ _ |>.mpr hxy
    · intro m hm
      exact Graph.hasNode_mono_add_node _ _ _ _ hm
    · intro m hm
      rw [Graph.attr_add_node_ne _ _ _ _ hm]
    · intro _
      rw [Graph.incidentCount_add_node]

/-- Each iteration of the label-pattern loop either raises, or proceeds to
the remaining atoms with a graph that only extends the previous one (and
whose loop state keeps avoiding the query node). -/
theorem buildLoop_cons_facts (pid : Nat) (G : Graph) (last : LastVal)
    (a : PAtom) (rest : List PAtom) (i : Nat) (par : List NodeId)
    (la : Option PAtom) (bn : Bool) :
    (∃ e, buildLoop pid G last (a :: rest) i par la bn = .error e) ∨
    (∃ G₁ last' par' bn',
      buildLoop pid G last (a :: rest) i par la bn
        = buildLoop pid G₁ last' rest (i + 1) par' (some a) bn' ∧
      (∀ x y, G.hasEdge x y → G₁.hasEdge x y) ∧
      (∀ m, G.hasNode m → G₁.hasNode m) ∧
      (∀ m, (∀ p j, m ≠ NodeId.atomN p j) → G₁.attr m = G.attr m) ∧
      ((∀ x ∈ last.toList, x ≠ .queryN) → (∀ x ∈ par, x ≠ .queryN) →
        G₁.incidentCount .queryN = G.incidentCount .queryN ∧
        (∀ x ∈ last'.toList, x ≠ .queryN) ∧ (∀ x ∈ par', x ≠ .queryN))) := by
  cases a with
  | quantified q a' =>
    by_cases hla : isPlainSimpleA la = true
    · left
      exact ⟨.caseNotCovered, by simp [buildLoop, hla]⟩
    · rw [Bool.not_eq_true] at hla
      cases q with
      | zeroOrMore =>
        cases a' with
        | anyA =>
          cases hadd : addEdgeFromLast
              (G.add_node (.atomN pid i) ⟨.ZeroOrMore, "atom:label:.*", none⟩)
              last (.atomN pid i) with
          | error e =>
            left
            exact ⟨e, by simp [buildLoop, hla, hadd]⟩
          | ok G2 =>
            right
            refine ⟨G2, .single (.atomN pid i), par, bn,
              by simp [buildLoop, hla, hadd], ?_, ?_, ?_, ?_⟩ <;>
              obtain ⟨x, hx, rfl⟩ := addEdgeFromLast_ok _ _ _ _ hadd
            · intro x' y hxy
              exact Graph.hasEdge_mono_add_edge _ _ _ _ _
                (Graph.hasEdge_add_node _ _ _ _ _ |>.mpr hxy)
            · intro m hm
              exact Graph.hasNode_mono_add_edge _ _ _ _
                (Graph.hasNode_mono_add_node _ _ _ _ hm)
            · intro m hm
              rw [Graph.attr_add_edge, Graph.attr_add_node_ne _ _ _ _ (hm pid i)]
            · intro hlast hpar
              subst hx
              refine ⟨?_, ?_, hpar⟩
              · rw [Graph.incidentCount_add_edge_ne _ _ _ _
                  (hlast x (by simp [LastVal.toList]))
                  (fun hc => NodeId.noConfusion hc), Graph.incidentCount_add_node]
              · intro y hy
                simp only [LastVal.toList, List.mem_singleton] at hy
                subst hy
                exact fun hc => NodeId.noConfusion hc
        | simple t =>
          left
          exact ⟨.unknownQuantifier, by simp [buildLoop, hla]⟩
      | oneOrMore =>
        cases a' with
        | anyA =>
          cases hadd : addEdgeFromLast
              (G.add_node (.atomN pid i) ⟨.OneOrMore, "atom:label:.+", none⟩)
              last (.atomN pid i) with
          | error e =>
            left
            exact ⟨e, by simp [buildLoop, hla, hadd]⟩
          | ok G2 =>
            right
            refine ⟨G2, .single (.atomN pid i), par, bn,
              by simp [buildLoop, hla, hadd], ?_, ?_, ?_, ?_⟩ <;>
              obtain ⟨x, hx, rfl⟩ := addEdgeFromLast_ok _ _ _ _ hadd
            · intro x' y hxy
              exact Graph.hasEdge_mono_add_edge _ _ _ _ _
                (Graph.hasEdge_add_node _ _ _ _ _ |>.mpr hxy)
            · intro m hm
              exact Graph.hasNode_mono_add_edge _ _ _ _
                (Graph.hasNode_mono_add_node _ _ _ _ hm)
            · intro m hm
              rw [Graph.attr_add_edge, Graph.attr_add_node_ne _ _ _ _ (hm pid i)]
            · intro hlast hpar
              subst hx
              refine ⟨?_, ?_, hpar⟩
              · rw [Graph.incidentCount_add_edge_ne _ _ _ _
                  (hlast x (by simp [LastVal.toList]))
                  (fun hc => NodeId.noConfusion hc), Graph.incidentCount_add_node]
              · intro y hy
                simp only [LastVal.toList, List.mem_singleton] at hy
                subst hy
                exact fun hc => NodeId.noConfusion hc
        | simple t =>
          cases hn : atom_label_to_node G (.atomN pid i) (.simple t) with
          | error e =>
            left
            exact ⟨e, by simp [buildLoop, hla, hn]⟩
          | ok p =>
            obtain ⟨G1, node⟩ := p
            obtain ⟨hnode, hE1, hN1, hA1, hC1⟩ :=
              atom_label_to_node_ok_facts _ _ _ _ _ hn
            subst hnode
            cases hadd : addEdgeFromLast G1 last (.atomN pid i) with
            | error e =>
              left
              exact ⟨e, by simp [buildLoop, hla, hn, hadd]⟩
            | ok G2 =>
              right
              refine ⟨G2, last, par ++ [.atomN pid i], true,
                by simp [buildLoop, hla, hn, hadd], ?_, ?_, ?_, ?_⟩ <;>
                obtain ⟨x, hx, rfl⟩ := addEdgeFromLast_ok _ _ _ _ hadd
              · intro x' y hxy
                exact Graph.hasEdge_mono_add_edge _ _ _ _ _ (hE1 _ _ hxy)
              · intro m hm
                exact Graph.hasNode_mono_add_edge _ _ _ _ (hN1 _ hm)
              · intro m hm
                rw [Graph.attr_add_edge, hA1 _ (hm pid i)]
              · intro hlast hpar
                subst hx
                refine ⟨?_, hlast, ?_⟩
                · rw [Graph.incidentCount_add_edge_ne _ _ _ _
                    (hlast x (by simp [LastVal.toList]))
                    (fun hc => NodeId.noConfusion hc),
                    hC1 (fun hc => NodeId.noConfusion hc)]
                · intro y hy
                  rcases List.mem_append.mp hy with hy | hy
                  · exact hpar y hy
                  · simp only [List.mem_singleton] at hy
                    subst hy
                    exact fun hc => NodeId.noConfusion hc
  | plain a' =>
    cases hn : atom_label_to_node G (.atomN pid i) a' with
    | error e =>
      left
      exact ⟨e, by simp [buildLoop, hn]⟩
    | ok p =>
      obtain ⟨G1, node⟩ := p
      obtain ⟨hnode, hE1, hN1, hA1, hC1⟩ := atom_label_to_node_ok_facts _ _ _ _ _ hn
      subst hnode
      cases bn with
      | true =>
        cases hadd : addEdgeFromLast G1 last (.atomN pid i) with
        | error e =>
          left
          exact ⟨e, by simp [buildLoop, hn, hadd]⟩
        | ok G2 =>
          right
          refine ⟨G2, last, par ++ [.atomN pid i], false,
            by simp [buildLoop, hn, hadd], ?_, ?_, ?_, ?_⟩ <;>
            obtain ⟨x, hx, rfl⟩ := addEdgeFromLast_ok _ _ _ _ hadd
          · intro x' y hxy
            exact Graph.hasEdge_mono_add_edge _ _ _ _ _ (hE1 _ _ hxy)
          · intro m hm
            exact Graph.hasNode_mono_add_edge _ _ _ _ (hN1 _ hm)
          · intro m hm
            rw [Graph.attr_add_edge, hA1 _ (hm pid i)]
          · intro hlast hpar
            subst hx
            refine ⟨?_, hlast, ?_⟩
            · rw [Graph.incidentCount_add_edge_ne _ _ _ _
                (hlast x (by simp [LastVal.toList]))
                (fun hc => NodeId.noConfusion hc),
                hC1 (fun hc => NodeId.noConfusion hc)]
            · intro y hy
              rcases List.mem_append.mp hy with hy | hy
              · exact hpar y hy
              · simp only [List.mem_singleton] at hy
                subst hy
                exact fun hc => NodeId.noConfusion hc
      | false =>
        by_cases hpar0 : par.length > 0
        · right
          refine ⟨addEdgesFrom G1 par (.atomN pid i), .single (.atomN pid i),
            [], false, by simp [buildLoop, hn, hpar0], ?_, ?_, ?_, ?_⟩
          · intro x' y hxy
            exact addEdgesFrom_hasEdge_mono _ _ _ _ _ (hE1 _ _ hxy)
          · intro m hm
            exact addEdgesFrom_hasNode_mono _ _ _ _ (hN1 _ hm)
          · intro m hm
            rw [addEdgesFrom_attr, hA1 _ (hm pid i)]
          · intro hlast hpar
            refine ⟨?_, ?_, by simp⟩
            · rw [addEdgesFrom_incidentCount _ _ _ _
                (fun hc => NodeId.noConfusion hc) hpar,
                hC1 (fun hc => NodeId.noConfusion hc)]
            · intro y hy
              simp only [LastVal.toList, List.mem_singleton] at hy
              subst hy
              exact fun hc => NodeId.noConfusion hc
        · cases hadd : addEdgeFromLast G1 last (.atomN pid i) with
          | error e =>
            left
            exact ⟨e, by simp [buildLoop, hn, hpar0, hadd]⟩
          | ok G2 =>
            right
            refine ⟨G2, .single (.atomN pid i), [], false,
              by simp [buildLoop, hn, hpar0, hadd], ?_, ?_, ?_, ?_⟩ <;>
              obtain ⟨x, hx, rfl⟩ := addEdgeFromLast_ok _ _ _ _ hadd
            · intro x' y hxy
              exact Graph.hasEdge_mono_add_edge _ _ _ _ _ (hE1 _ _ hxy)
            · intro m hm
              exact Graph.hasNode_mono_add_edge _ _ _ _ (hN1 _ hm)
            · intro m hm
              rw [Graph.attr_add_edge, hA1 _ (hm pid i)]
            · intro hlast hpar
              subst hx
              refine ⟨?_, ?_, by simp⟩
              · rw [Graph.incidentCount_add_edge_ne _ _ _ _
                  (hlast x (by simp [LastVal.toList]))
                  (fun hc => NodeId.noConfusion hc),
                  hC1 (fun hc => NodeId.noConfusion hc)]
              · intro y hy
                simp only [LastVal.toList, List.mem_singleton] at hy
                subst hy
                exact fun hc => NodeId.noConfusion hc

/-- Inversion of a successful run of the whole label-pattern loop. -/
theorem buildLoop_ok_facts (pid : Nat) (atoms : List PAtom) :
    ∀ G last i par la bn G' l',
      buildLoop pid G last atoms i par la bn = .ok (G', l') →
      (∀ x y, G.hasEdge x y → G'.hasEdge x y) ∧
      (∀ m, G.hasNode m → G'.hasNode m) ∧
      (∀ m, (∀ p j, m ≠ NodeId.atomN p j) → G'.attr m = G.attr m) ∧
      ((∀ x ∈ last.toList, x ≠ .queryN) → (∀ x ∈ par, x ≠ .queryN) →
        G'.incidentCount .queryN = G.incidentCount .queryN ∧
        ∀ x ∈ l'.toList, x ≠ .queryN) := by
  induction atoms with
  | nil =>
    intro G last i par la bn G' l' h
    simp only [buildLoop] at h
    split at h <;> simp only [Except.ok.injEq, Prod.mk.injEq] at h <;>
      obtain ⟨hG, hl⟩ := h <;> subst hG <;> subst hl
    · exact ⟨fun _ _ hxy => hxy, fun _ hm => hm, fun _ _ => rfl,
        fun _ hpar => ⟨rfl, hpar⟩⟩
    · exact ⟨fun _ _ hxy => hxy, fun _ hm => hm, fun _ _ => rfl,
        fun hlast _ => ⟨rfl, hlast⟩⟩
  | cons a rest ih =>
    intro G last i par la bn G' l' h
    rcases buildLoop_cons_facts pid G last a rest i par la bn with
      ⟨e, he⟩ | ⟨G₁, last', par', bn', heq, hE, hN, hA, hC⟩
    · rw [he] at h
      exact Except.noConfusion h
    · rw [heq] at h
      obtain ⟨hE', hN', hA', hC'⟩ := ih G₁ last' (i + 1) par' (some a) bn' G' l' h
      refine ⟨fun x y hxy => hE' x y (hE x y hxy),
        fun m hm => hN' m (hN m hm),
        fun m hm => by rw [hA' m hm, hA m hm], ?_⟩
      intro hlast hpar
      obtain ⟨hc1, hl1, hp1⟩ := hC hlast hpar
      obtain ⟨hc2, hl2⟩ := hC' hl1 hp1
      exact ⟨by rw [hc2, hc1], hl2⟩

theorem firstRule_error (dest : Destination) (e : Err)
    (h : firstRule dest = .error e) : e = .indexError := by
  obtain ⟨groups⟩ := dest
  cases groups with
  | nil => simpa [firstRule] using (Except.error.inj h).symm
  | cons g rest =>
    obtain ⟨rules⟩ := g
    cases rules with
    | nil => simpa [firstRule] using (Except.error.inj h).symm
    | cons r rrest => simp [firstRule] at h

theorem actionNode_error (G : Graph) (t d j : Nat) (rname : String) (a : Action)
    (e : Err) (h : actionNode G t d j rname a = .error e) :
    e = .unknownActionType := by
  cases a with
  | push l => simp [actionNode] at h
  | swap l => simp [actionNode] at h
  | pop => simp [actionNode] at h
  | unknownAction =>
    simp only [actionNode, Except.error.injEq] at h
    exact h.symm

theorem actionsLoop_error (acts : List Action) :
    ∀ G t d rname last j e, actionsLoop G t d rname last j acts = .error e →
      e = .unknownActionType := by
  induction acts with
  | nil => intro G t d rname last j e h; simp [actionsLoop] at h
  | cons a rest ih =>
    intro G t d rname last j e h
    simp only [actionsLoop] at h
    cases hn : actionNode G t d j rname a with
    | error e' =>
      simp only [hn, Except.error.injEq] at h
      rw [← h]
      exact actionNode_error _ _ _ _ _ _ _ hn
    | ok G2 =>
      simp only [hn] at h
      exact ih _ _ _ _ _ _ _ h

theorem destStep_error (G : Graph) (t d : Nat) (rname : String)
    (dest : Destination) (e : Err) (h : destStep G t d rname dest = .error e) :
    e = .indexError ∨ e = .unknownActionType := by
  simp only [destStep] at h
  cases hf : firstRule dest with
  | error e' =>
    simp only [hf, Except.error.injEq] at h
    rw [← h]
    exact Or.inl (firstRule_error _ _ hf)
  | ok rule =>
    simp only [hf] at h
    split at h
    · rename_i e' heq
      right
      rw [← Except.error.inj h]
      exact actionsLoop_error _ _ _ _ _ _ _ _ heq
    · exact Except.noConfusion h

theorem destsLoop_error (dests : List Destination) :
    ∀ G t rname d e, destsLoop G t rname d dests = .error e →
      e = .indexError ∨ e = .unknownActionType := by
  induction dests with
  | nil => intro G t rname d e h; simp [destsLoop] at h
  | cons dest rest ih =>
    intro G t rname d e h
    simp only [destsLoop] at h
    cases hs : destStep G t d rname dest with
    | error e' =>
      simp only [hs, Except.error.injEq] at h
      rw [← h]
      exact destStep_error _ _ _ _ _ _ hs
    | ok G2 =>
      simp only [hs] at h
      exact ih _ _ _ _ _ h

theorem tablesLoop_error (tables : List (String × List Destination)) :
    ∀ G t e, tablesLoop G t tables = .error e →
      e = .indexError ∨ e = .unknownActionType := by
  induction tables with
  | nil => intro G t e h; simp [tablesLoop] at h
  | cons entry rest ih =>
    intro G t e h
    obtain ⟨rname, dests⟩ := entry
    simp only [tablesLoop] at h
    cases hs : destsLoop G t rname 0 dests with
    | error e' =>
      simp only [hs, Except.error.injEq] at h
      rw [← h]
      exact destsLoop_error _ _ _ _ _ _ hs
    | ok G2 =>
      simp only [hs] at h
      exact ih _ _ _ h

theorem build_labels_graph_repr_hasNode_mono (G : Graph) (last : LastVal)
    (st : Option (List PAtom)) (pid : Nat) (G' : Graph) (l' : LastVal)
    (h : build_labels_graph_repr G last st pid = .ok (G', l')) :
    ∀ m, G.hasNode m → G'.hasNode m := by
  cases st with
  | none =>
    simp only [build_labels_graph_repr] at h
    cases hadd : addEdgeFromLast
        (G.add_node (.strN "empty") ⟨.Label, "label:empty", none⟩) last
        (.strN "empty") with
    | error e =>
      rw [hadd] at h
      exact absurd h (by simp)
    | ok G2 =>
      simp only [hadd, Except.ok.injEq, Prod.mk.injEq] at h
      obtain ⟨x, hx, rfl⟩ := addEdgeFromLast_ok _ _ _ _ hadd
      intro m hm
      rw [← h.1]
      exact Graph.hasNode_mono_add_edge _ _ _ _
        (Graph.hasNode_mono_add_node _ _ _ _ hm)
  | some atoms =>
    exact (buildLoop_ok_facts pid atoms G last 0 [] none false G' l' h).2.1

/-- C6: every label named by a plain atom (or by a quantified plain atom)
of the constructing or destructing pattern is registered as a Label node by
`ensure_label_nodes` before the pattern encoders run, so the registration
assert inside `atom_label_to_node` never fails during `mpls2graph` — no
run of `mpls2graph` returns the assert failure. -/
theorem label_assert_never_fails (net : Network) (query : QueryAst) (k : Int) :
    failsLabelAssert (mpls2graph net query k) = false := by
  unfold mpls2graph
  cases htab : tablesLoop (baseGraph net) 0 net.routingTables with
  | error e =>
    simp only [htab]
    rcases tablesLoop_error _ _ _ _ htab with rfl | rfl <;> rfl
  | ok Gf =>
    simp only [htab]
    have hregc : ∀ atoms, query.constr = some atoms →
        labelsRegistered ((ensure_label_nodes (ensure_label_nodes Gf query.constr)
          query.destr).add_node .queryN ⟨.Query, "query", some k⟩) atoms := by
      intro atoms hcon s hs
      rw [hcon]
      apply Graph.hasNode_mono_add_node
      apply ensure_label_nodes_hasNode_mono
      exact ensureLoop_registers atoms Gf s hs
    cases hb : build_labels_graph_repr
        ((ensure_label_nodes (ensure_label_nodes Gf query.constr)
          query.destr).add_node .queryN ⟨.Query, "query", some k⟩)
        (.single .queryN) query.constr 0 with
    | error e =>
      simp only [hb]
      cases e <;> first
        | rfl
        | exact absurd hb (build_labels_graph_repr_never_assert _ _ _ _ hregc)
    | ok p =>
      obtain ⟨G4, last4⟩ := p
      simp only [hb]
      cases hnl : netLoop net G4 last4 0 query.network with
      | error e =>
        simp only [hnl]
        cases e <;> first
          | rfl
          | exact absurd hnl (netLoop_never_assert net query.network G4 last4 0)
      | ok p2 =>
        obtain ⟨G5, last5⟩ := p2
        simp only [hnl]
        have hregd : ∀ atoms, query.destr = some atoms →
            labelsRegistered G5 atoms := by
          intro atoms hdes s hs
          have h2 : (ensure_label_nodes (ensure_label_nodes Gf query.constr)
              query.destr).hasNode (.labelN (some (pyStrip s))) := by
            rw [hdes]
            exact ensureLoop_registers atoms _ s hs
          have h3 := Graph.hasNode_mono_add_node _ .queryN
            ⟨.Query, "query", some k⟩ _ h2
          have h4 := build_labels_graph_repr_hasNode_mono _ _ _ _ _ _ hb _ h3
          exact (netLoop_ok_facts net query.network G4 last4 0 G5 last5 hnl).2.2.2.1
            _ h4
        cases hd : build_labels_graph_repr G5 last5 query.destr 2 with
        | error e =>
          simp only [hd]
          cases e <;> first
            | rfl
            | exact absurd hd (build_labels_graph_repr_never_assert _ _ _ _ hregd)
        | ok p3 =>
          simp only [hd]
          rfl

/-! ## Characterization of the forwarding encoder (for C3 and C4) -/

/-- Inversion of a successful `actionNode`. -/
theorem actionNode_ok_facts (G : Graph) (t d j : Nat) (rname : String)
    (a : Action) (G₂ : Graph) (h : actionNode G t d j rname a = .ok G₂) :
    a ≠ .unknownAction ∧
    G₂.attr (.actionN t d j) = actionAttr d j rname a ∧
    (∀ m, m ≠ .actionN t d j → G₂.attr m = G.attr m) ∧
    (∀ x y, G.hasEdge x y → G₂.hasEdge x y) ∧
    (∀ m, G.hasNode m → G₂.hasNode m) ∧
    (∀ l, actionLabel a = some l → G₂.hasEdge (.actionN t d j) (.labelN (some l))) ∧
    (∀ e ∈ G₂.edges, e ∈ G.edges ∨ ∃ l, actionLabel a = some l ∧
      e = (.actionN t d j, .labelN (some l))) := by
  cases a with
  | push l =>
    simp only [actionNode, Except.ok.injEq] at h
    subst h
    refine ⟨fun hc => Action.noConfusion hc, ?_, ?_, ?_, ?_, ?_, ?_⟩
    · rw [Graph.attr_add_edge]
      exact Graph.attr_add_node_self _ _ _
    · intro m hm
      rw [Graph.attr_add_edge, Graph.attr_add_node_ne _ _ _ _ hm]
    · intro x y hxy
      exact Graph.hasEdge_mono_add_edge _ _ _ _ _
        (Graph.hasEdge_add_node _ _ _ _ _ |>.mpr hxy)
    · intro m hm
      exact Graph.hasNode_mono_add_edge _ _ _ _
        (Graph.hasNode_mono_add_node _ _ _ _ hm)
    · intro l' hl
      have hll : l = l' := by simpa [actionLabel] using hl
      subst hll
      exact Graph.hasEdge_add_edge_self _ _ _
    · intro e he
      rcases Graph.edges_mem_add_edge _ _ _ _ he with he' | rfl
      · rw [Graph.edges_add_node] at he'
        exact Or.inl he'
      · exact Or.inr ⟨l, rfl, rfl⟩
  | swap l =>
    simp only [actionNode, Except.ok.injEq] at h
    subst h
    refine ⟨fun hc => Action.noConfusion hc, ?_, ?_, ?_, ?_, ?_, ?_⟩
    · rw [Graph.attr_add_edge]
      exact Graph.attr_add_node_self _ _ _
    · intro m hm
      rw [Graph.attr_add_edge, Graph.attr_add_node_ne _ _ _ _ hm]
    · intro x y hxy
      exact Graph.hasEdge_mono_add_edge _ _ _ _ _
        (Graph.hasEdge_add_node _ _ _ _ _ |>.mpr hxy)
    · intro m hm
      exact Graph.hasNode_mono_add_edge _ _ _ _
        (Graph.hasNode_mono_add_node _ _ _ _ hm)
    · intro l' hl
      have hll : l = l' := by simpa [actionLabel] using hl
      subst hll
      exact Graph.hasEdge_add_edge_self _ _ _
    · intro e he
      rcases Graph.edges_mem_add_edge _ _ _ _ he with he' | rfl
      · rw [Graph.edges_add_node] at he'
        exact Or.inl he'
      · exact Or.inr ⟨l, rfl, rfl⟩
  | pop =>
    simp only [actionNode, Except.ok.injEq] at h
    subst h
    refine ⟨fun hc => Action.noConfusion hc, ?_, ?_, ?_, ?_, ?_, ?_⟩
    · exact Graph.attr_add_node_self _ _ _
    · intro m hm
      rw [Graph.attr_add_node_ne _ _ _ _ hm]
    · intro x y hxy
      exact Graph.hasEdge_add_node _ _ _ _ _ |>.mpr hxy
    · intro m hm
      exact Graph.hasNode_mono_add_node _ _ _ _ hm
    · intro l' hl
      exact absurd hl (by simp [actionLabel])
    · intro e he
      rw [Graph.edges_add_node] at he
      exact Or.inl he
  | unknownAction => simp [actionNode] at h

/-- Inversion of a successful action-chain loop started at chain position
`j`. -/
theorem actionsLoop_facts (t d : Nat) (rname : String) (acts : List Action) :
    ∀ G j G' last',
      actionsLoop G t d rname (chainNode t d j) j acts = .ok (G', last') →
      last' = chainNode t d (j + acts.length) ∧
      (∀ a ∈ acts, a ≠ .unknownAction) ∧
      (∀ k a, acts[k]? = some a →
        G'.attr (.actionN t d (j + k)) = actionAttr d (j + k) rname a) ∧
      (∀ m, (∀ k, j ≤ k → k < j + acts.length → m ≠ NodeId.actionN t d k) →
        G'.attr m = G.attr m) ∧
      (∀ x y, G.hasEdge x y → G'.hasEdge x y) ∧
      (∀ m, G.hasNode m → G'.hasNode m) ∧
      (∀ k, k < acts.length →
        G'.hasEdge (chainNode t d (j + k)) (.actionN t d (j + k))) ∧
      (∀ k l, (acts[k]? = some (.push l) ∨ acts[k]? = some (.swap l)) →
        G'.hasEdge (.actionN t d (j + k)) (.labelN (some l))) ∧
      (∀ e ∈ G'.edges, e ∈ G.edges ∨
        (∃ k, k < acts.length ∧ e = (chainNode t d (j + k), .actionN t d (j + k))) ∨
        (∃ k a l, acts[k]? = some a ∧ actionLabel a = some l ∧
          e = (.actionN t d (j + k), .labelN (some l)))) := by
  induction acts with
  | nil =>
    intro G j G' last' h
    simp only [actionsLoop, Except.ok.injEq, Prod.mk.injEq] at h
    obtain ⟨hG, hl⟩ := h
    subst hG
    refine ⟨by rw [← hl]; simp, by simp, ?_, fun _ _ => rfl, fun _ _ hxy => hxy,
      fun _ hm => hm, by simp, ?_, fun e he => Or.inl he⟩
    · intro k a ha
      simp at ha
    · intro k l hl'
      rcases hl' with hl' | hl' <;> simp at hl'
  | cons a rest ih =>
    intro G j G' last' h
    simp only [actionsLoop] at h
    cases hn : actionNode G t d j rname a with
    | error e =>
      rw [hn] at h
      exact absurd h (by simp)
    | ok G₂ =>
      simp only [hn] at h
      obtain ⟨hunk, hattr, hattrne, hE, hN, hlab, hecases⟩ :=
        actionNode_ok_facts G t d j rname a G₂ hn
      have hrec := ih (G₂.add_edge (chainNode t d j) (.actionN t d j)) (j + 1)
        G' last' h
      obtain ⟨hlast, hunk', hattr', hattrne', hE', hN', hchain', hlab', he'⟩ := hrec
      refine ⟨?_, ?_, ?_, ?_, ?_, ?_, ?_, ?_, ?_⟩
      · rw [hlast]
        congr 1
        simp only [List.length_cons]
        omega
      · intro a' ha'
        rcases List.mem_cons.mp ha' with rfl | ha'
        · exact hunk
        · exact hunk' a' ha'
      · intro k a' ha'
        cases k with
        | zero =>
          simp only [List.getElem?_cons_zero, Option.some.injEq] at ha'
          subst ha'
          rw [Nat.add_zero]
          rw [hattrne' _ (fun k hk _ => by
            intro hc
            have := (NodeId.actionN.injEq _ _ _ _ _ _).mp hc
            omega)]
          rw [Graph.attr_add_edge]
          exact hattr
        | succ k' =>
          simp only [List.getElem?_cons_succ] at ha'
          have := hattr' k' a' ha'
          rwa [show j + 1 + k' = j + (k' + 1) by omega] at this
      · intro m hm
        have hbound : ∀ k, j + 1 ≤ k → k < j + 1 + rest.length →
            k < j + (a :: rest).length := by
          intro k h1 h2
          simp only [List.length_cons]
          omega
        rw [hattrne' m (fun k hk1 hk2 => hm k (by omega) (hbound k hk1 hk2)),
          Graph.attr_add_edge, hattrne m (hm j (by omega) (by
            simp only [List.length_cons]
            omega))]
      · intro x y hxy
        exact hE' x y (Graph.hasEdge_mono_add_edge _ _ _ _ _ (hE x y hxy))
      · intro m hm
        exact hN' m (Graph.hasNode_mono_add_edge _ _ _ _ (hN m hm))
      · intro k hk
        cases k with
        | zero =>
          rw [Nat.add_zero]
          exact hE' _ _ (Graph.hasEdge_add_edge_self _ _ _)
        | succ k' =>
          have := hchain' k' (by simp at hk; omega)
          rwa [show j + 1 + k' = j + (k' + 1) by omega] at this
      · intro k l hl'
        cases k with
        | zero =>
          rw [Nat.add_zero]
          apply hE'
          apply Graph.hasEdge_mono_add_edge
          rcases hl' with hl' | hl' <;>
            simp only [List.getElem?_cons_zero, Option.some.injEq] at hl' <;>
            subst hl'
          · exact hlab l (by simp [actionLabel])
          · exact hlab l (by simp [actionLabel])
        | succ k' =>
          have := hlab' k' l (by
            rcases hl' with hl' | hl' <;>
              simp only [List.getElem?_cons_succ] at hl'
            · exact Or.inl hl'
            · exact Or.inr hl')
          rwa [show j + 1 + k' = j + (k' + 1) by omega] at this
      · intro e he
        rcases he' e he with he'' | ⟨k, hk, rfl⟩ | ⟨k, a', l, ha', hal, rfl⟩
        · rcases Graph.edges_mem_add_edge _ _ _ _ he'' with he3 | rfl
          · rcases hecases e he3 with he4 | ⟨l, hal, rfl⟩
            · exact Or.inl he4
            · exact Or.inr (Or.inr ⟨0, a, l, by simp, hal, by rw [Nat.add_zero]⟩)
          · exact Or.inr (Or.inl ⟨0, by simp, by rw [Nat.add_zero]⟩)
        · refine Or.inr (Or.inl ⟨k + 1, by simp; omega, ?_⟩)
          rw [show j + (k + 1) = j + 1 + k by omega]
        · refine Or.inr (Or.inr ⟨k + 1, a', l, by simpa using ha', hal, ?_⟩)
          rw [show j + (k + 1) = j + 1 + k by omega]

/-- Inversion of a successful `destStep`: the Rule node, its edges and its
action chain, plus the characterization of every edge the step adds. -/
theorem destStep_facts (G : Graph) (t d : Nat) (rname : String)
    (dest : Destination) (G₂ : Graph) (h : destStep G t d rname dest = .ok G₂) :
    ∃ r, firstRule dest = .ok r ∧
      G₂.attr (.ruleN t d) = some (ruleAttr d rname) ∧
      (∀ a ∈ r.actions, a ≠ .unknownAction) ∧
      (∀ k a, r.actions[k]? = some a →
        G₂.attr (.actionN t d k) = actionAttr d k rname a) ∧
      (∀ m, m ≠ .ruleN t d → (∀ k, k < r.actions.length →
        m ≠ NodeId.actionN t d k) → G₂.attr m = G.attr m) ∧
      (∀ x y, G.hasEdge x y → G₂.hasEdge x y) ∧
      (∀ m, G.hasNode m → G₂.hasNode m) ∧
      G₂.hasEdge (.ruleN t d) r.fromI.nodeId ∧
      (∀ l, r.label = some l → G₂.hasEdge (.ruleN t d) (.labelN (some l))) ∧
      (∀ k, k < r.actions.length →
        G₂.hasEdge (chainNode t d k) (.actionN t d k)) ∧
      (∀ k l, (r.actions[k]? = some (.push l) ∨ r.actions[k]? = some (.swap l)) →
        G₂.hasEdge (.actionN t d k) (.labelN (some l))) ∧
      G₂.hasEdge (chainNode t d r.actions.length) r.toI.nodeId ∧
      (∀ e ∈ G₂.edges, e ∈ G.edges ∨ fwdRuleEdge t d r e) := by
  simp only [destStep] at h
  cases hf : firstRule dest with
  | error e =>
    rw [hf] at h
    exact absurd h (by simp)
  | ok r =>
    simp only [hf] at h
    refine ⟨r, rfl, ?_⟩
    cases hlab : r.label with
    | none =>
      rw [hlab] at h
      cases hal : actionsLoop
          ((G.add_node (.ruleN t d) ⟨.Rule, rname ++ ":rule" ++ toString d,
            none⟩).add_edge (.ruleN t d) r.fromI.nodeId)
          t d rname (.ruleN t d) 0 r.actions with
      | error e =>
        rw [hal] at h
        exact absurd h (by simp)
      | ok p =>
        obtain ⟨Gl, last'⟩ := p
        simp only [hal, Except.ok.injEq] at h
        subst h
        obtain ⟨hlast, hunk, hattrA, hattrP, hE, hN, hchain, hlabE, hecases⟩ :=
          actionsLoop_facts t d rname r.actions _ 0 Gl last' hal
        rw [Nat.zero_add] at hlast
        subst hlast
        refine ⟨?_, hunk, ?_, ?_, ?_, ?_, ?_, ?_, ?_, ?_, ?_, ?_⟩
        · rw [Graph.attr_add_edge,
            hattrP _ (fun k _ _ hc => NodeId.noConfusion hc),
            Graph.attr_add_edge]
          exact Graph.attr_add_node_self _ _ _
        · intro k a ha
          have := hattrA k a ha
          rw [Nat.zero_add] at this
          rw [Graph.attr_add_edge, this]
        · intro m hm1 hm2
          rw [Graph.attr_add_edge, hattrP _ (fun k _ hk => hm2 k (by omega)),
            Graph.attr_add_edge, Graph.attr_add_node_ne _ _ _ _ hm1]
        · intro x y hxy
          refine Graph.hasEdge_mono_add_edge _ _ _ _ _ (hE _ _ ?_)
          exact Graph.hasEdge_mono_add_edge _ _ _ _ _
            (Graph.hasEdge_add_node _ _ _ _ _ |>.mpr hxy)
        · intro m hm
          refine Graph.hasNode_mono_add_edge _ _ _ _ (hN _ ?_)
          exact Graph.hasNode_mono_add_edge _ _ _ _
            (Graph.hasNode_mono_add_node _ _ _ _ hm)
        · exact Graph.hasEdge_mono_add_edge _ _ _ _ _
            (hE _ _ (Graph.hasEdge_add_edge_self _ _ _))
        · intro l hl
          exact Option.noConfusion hl
        · intro k hk
          have := hchain k hk
          rw [Nat.zero_add] at this
          exact Graph.hasEdge_mono_add_edge _ _ _ _ _ this
        · intro k l hl
          have := hlabE k l hl
          rw [Nat.zero_add] at this
          exact Graph.hasEdge_mono_add_edge _ _ _ _ _ this
        · exact Graph.hasEdge_add_edge_self _ _ _
        · intro e he
          rcases Graph.edges_mem_add_edge _ _ _ _ he with he1 | rfl
          · rcases hecases e he1 with he2 | ⟨k, hk, rfl⟩ | ⟨k, a, l, ha, hal', rfl⟩
            · rcases Graph.edges_mem_add_edge _ _ _ _ he2 with he3 | rfl
              · rw [Graph.edges_add_node] at he3
                exact Or.inl he3
              · exact Or.inr (Or.inl rfl)
            · refine Or.inr (Or.inr (Or.inr (Or.inr (Or.inl ⟨k, hk, ?_⟩))))
              rw [Nat.zero_add]
            · refine Or.inr (Or.inr (Or.inr (Or.inl
                ⟨k, a, l, ha, hal', ?_⟩)))
              rw [Nat.zero_add]
          · exact Or.inr (Or.inr (Or.inr (Or.inr (Or.inr rfl))))
    | some l0 =>
      rw [hlab] at h
      cases hal : actionsLoop
          (((G.add_node (.ruleN t d) ⟨.Rule, rname ++ ":rule" ++ toString d,
            none⟩).add_edge (.ruleN t d) r.fromI.nodeId).add_edge (.ruleN t d)
            (.labelN (some l0)))
          t d rname (.ruleN t d) 0 r.actions with
      | error e =>
        rw [hal] at h
        exact absurd h (by simp)
      | ok p =>
        obtain ⟨Gl, last'⟩ := p
        simp only [hal, Except.ok.injEq] at h
        subst h
        obtain ⟨hlast, hunk, hattrA, hattrP, hE, hN, hchain, hlabE, hecases⟩ :=
          actionsLoop_facts t d rname r.actions _ 0 Gl last' hal
        rw [Nat.zero_add] at hlast
        subst hlast
        refine ⟨?_, hunk, ?_, ?_, ?_, ?_, ?_, ?_, ?_, ?_, ?_, ?_⟩
        · rw [Graph.attr_add_edge,
            hattrP _ (fun k _ _ hc => NodeId.noConfusion hc),
            Graph.attr_add_edge, Graph.attr_add_edge]
          exact Graph.attr_add_node_self _ _ _
        · intro k a ha
          have := hattrA k a ha
          rw [Nat.zero_add] at this
          rw [Graph.attr_add_edge, this]
        · intro m hm1 hm2
          rw [Graph.attr_add_edge, hattrP _ (fun k _ hk => hm2 k (by omega)),
            Graph.attr_add_edge, Graph.attr_add_edge,
            Graph.attr_add_node_ne _ _ _ _ hm1]
        · intro x y hxy
          refine Graph.hasEdge_mono_add_edge _ _ _ _ _ (hE _ _ ?_)
          refine Graph.hasEdge_mono_add_edge _ _ _ _ _ ?_
          exact Graph.hasEdge_mono_add_edge _ _ _ _ _
            (Graph.hasEdge_add_node _ _ _ _ _ |>.mpr hxy)
        · intro m hm
          refine Graph.hasNode_mono_add_edge _ _ _ _ (hN _ ?_)
          refine Graph.hasNode_mono_add_edge _ _ _ _ ?_
          exact Graph.hasNode_mono_add_edge _ _ _ _
            (Graph.hasNode_mono_add_node _ _ _ _ hm)
        · refine Graph.hasEdge_mono_add_edge _ _ _ _ _ (hE _ _ ?_)
          exact Graph.hasEdge_mono_add_edge _ _ _ _ _
            (Graph.hasEdge_add_edge_self _ _ _)
        · intro l hl
          obtain rfl := Option.some.inj hl
          exact Graph.hasEdge_mono_add_edge _ _ _ _ _
            (hE _ _ (Graph.hasEdge_add_edge_self _ _ _))
        · intro k hk
          have := hchain k hk
          rw [Nat.zero_add] at this
          exact Graph.hasEdge_mono_add_edge _ _ _ _ _ this
        · intro k l hl
          have := hlabE k l hl
          rw [Nat.zero_add] at this
          exact Graph.hasEdge_mono_add_edge _ _ _ _ _ this
        · exact Graph.hasEdge_add_edge_self _ _ _
        · intro e he
          rcases Graph.edges_mem_add_edge _ _ _ _ he with he1 | rfl
          · rcases hecases e he1 with he2 | ⟨k, hk, rfl⟩ | ⟨k, a, l, ha, hal', rfl⟩
            · rcases Graph.edges_mem_add_edge _ _ _ _ he2 with he3 | rfl
              · rcases Graph.edges_mem_add_edge _ _ _ _ he3 with he4 | rfl
                · rw [Graph.edges_add_node] at he4
                  exact Or.inl he4
                · exact Or.inr (Or.inl rfl)
              · exact Or.inr (Or.inr (Or.inl ⟨l0, hlab, rfl⟩))
            · refine Or.inr (Or.inr (Or.inr (Or.inr (Or.inl ⟨k, hk, ?_⟩))))
              rw [Nat.zero_add]
            · refine Or.inr (Or.inr (Or.inr (Or.inl
                ⟨k, a, l, ha, hal', ?_⟩)))
              rw [Nat.zero_add]
          · exact Or.inr (Or.inr (Or.inr (Or.inr (Or.inr rfl))))

/-- Inversion of a successful destination loop started at display index
`d`. -/
theorem destsLoop_facts (dests : List Destination) :
    ∀ G t rname d G', destsLoop G t rname d dests = .ok G' →
      (∀ k dest, dests[k]? = some dest → ∃ r, firstRule dest = .ok r ∧
        G'.attr (.ruleN t (d + k)) = some (ruleAttr (d + k) rname) ∧
        (∀ a ∈ r.actions, a ≠ .unknownAction) ∧
        (∀ k' a, r.actions[k']? = some a →
          G'.attr (.actionN t (d + k) k') = actionAttr (d + k) k' rname a) ∧
        G'.hasEdge (.ruleN t (d + k)) r.fromI.nodeId ∧
        (∀ l, r.label = some l → G'.hasEdge (.ruleN t (d + k)) (.labelN (some l))) ∧
        (∀ k', k' < r.actions.length →
          G'.hasEdge (chainNode t (d + k) k') (.actionN t (d + k) k')) ∧
        (∀ k' l, (r.actions[k']? = some (.push l) ∨
            r.actions[k']? = some (.swap l)) →
          G'.hasEdge (.actionN t (d + k) k') (.labelN (some l))) ∧
        G'.hasEdge (chainNode t (d + k) r.actions.length) r.toI.nodeId) ∧
      (∀ m, (∀ k dest r, dests[k]? = some dest → firstRule dest = .ok r →
          m ≠ NodeId.ruleN t (d + k) ∧ ∀ k', k' < r.actions.length →
            m ≠ NodeId.actionN t (d + k) k') →
        G'.attr m = G.attr m) ∧
      (∀ x y, G.hasEdge x y → G'.hasEdge x y) ∧
      (∀ m, G.hasNode m → G'.hasNode m) ∧
      (∀ e ∈ G'.edges, e ∈ G.edges ∨ ∃ k dest r, dests[k]? = some dest ∧
        firstRule dest = .ok r ∧ fwdRuleEdge t (d + k) r e) := by
  induction dests with
  | nil =>
    intro G t rname d G' h
    simp only [destsLoop, Except.ok.injEq] at h
    subst h
    refine ⟨?_, fun _ _ => rfl, fun _ _ hxy => hxy, fun _ hm => hm,
      fun e he => Or.inl he⟩
    intro k dest hk
    simp at hk
  | cons dest rest ih =>
    intro G t rname d G' h
    simp only [destsLoop] at h
    cases hs : destStep G t d rname dest with
    | error e =>
      rw [hs] at h
      exact absurd h (by simp)
    | ok G₂ =>
      simp only [hs] at h
      obtain ⟨r, hr, hattrR, hunk, hattrA, hattrP, hE, hN, hfrom, hlabl,
        hchain, hlabE, hto, hecases⟩ := destStep_facts G t d rname dest G₂ hs
      obtain ⟨hper, hattrP', hE', hN', hecases'⟩ := ih G₂ t rname (d + 1) G' h
      have hcarry : ∀ m, m ≠ NodeId.ruleN t d →
          (∀ k', k' < r.actions.length → m ≠ NodeId.actionN t d k') →
          (∀ k dest' r', rest[k]? = some dest' → firstRule dest' = .ok r' →
            m ≠ NodeId.ruleN t (d + 1 + k) ∧ ∀ k', k' < r'.actions.length →
              m ≠ NodeId.actionN t (d + 1 + k) k') →
          G'.attr m = G.attr m := by
        intro m h1 h2 h3
        rw [hattrP' m h3, hattrP m h1 h2]
      refine ⟨?_, ?_, fun x y hxy => hE' _ _ (hE _ _ hxy),
        fun m hm => hN' _ (hN _ hm), ?_⟩
      · intro k dest' hk
        cases k with
        | zero =>
          simp only [List.getElem?_cons_zero, Option.some.injEq] at hk
          subst hk
          refine ⟨r, hr, ?_, hunk, ?_, hE' _ _ hfrom,
            fun l hl => hE' _ _ (hlabl l hl),
            fun k' hk' => hE' _ _ (hchain k' hk'),
            fun k' l hl => hE' _ _ (hlabE k' l hl),
            hE' _ _ hto⟩
          · rw [Nat.add_zero]
            rw [hattrP' _ (fun k dest'' r'' hk'' hr'' => ⟨by
                intro hc
                have := (NodeId.ruleN.injEq _ _ _ _).mp hc
                omega,
              fun k' _ hc => NodeId.noConfusion hc⟩)]
            exact hattrR
          · intro k' a ha
            rw [Nat.add_zero]
            rw [hattrP' _ (fun k dest'' r'' hk'' hr'' => ⟨
                fun hc => NodeId.noConfusion hc,
                by
                  intro k'' _ hc
                  have := (NodeId.actionN.injEq _ _ _ _ _ _).mp hc
                  omega⟩)]
            exact hattrA k' a ha
        | succ k' =>
          simp only [List.getElem?_cons_succ] at hk
          obtain ⟨r', hr', hrest⟩ := hper k' dest' hk
          refine ⟨r', hr', ?_⟩
          rw [show d + (k' + 1) = d + 1 + k' by omega]
          exact hrest
      · intro m hm
        refine hcarry m ?_ ?_ ?_
        · have := (hm 0 dest r (by simp) hr).1
          rwa [Nat.add_zero] at this
        · intro k' hk'
          have := (hm 0 dest r (by simp) hr).2 k' hk'
          rwa [Nat.add_zero] at this
        · intro k dest' r' hk hr'
          have := hm (k + 1) dest' r' (by simpa using hk) hr'
          rwa [show d + (k + 1) = d + 1 + k by omega] at this
      · intro e he
        rcases hecases' e he with he1 | ⟨k, dest', r', hk, hr', hshape⟩
        · rcases hecases e he1 with he2 | hshape
          · exact Or.inl he2
          · exact Or.inr ⟨0, dest, r, by simp, hr, by rwa [Nat.add_zero]⟩
        · refine Or.inr ⟨k + 1, dest', r', by simpa using hk, hr', ?_⟩
          rwa [show d + (k + 1) = d + 1 + k by omega]

/-- Inversion of a successful run of the whole forwarding loop started at
table index `t`. -/
theorem tablesLoop_facts (tables : List (String × List Destination)) :
    ∀ G t G', tablesLoop G t tables = .ok G' →
      (∀ u rname dests, tables[u]? = some (rname, dests) →
        ∀ k dest, dests[k]? = some dest → ∃ r, firstRule dest = .ok r ∧
          G'.attr (.ruleN (t + u) k) = some (ruleAttr k rname) ∧
          (∀ a ∈ r.actions, a ≠ .unknownAction) ∧
          (∀ k' a, r.actions[k']? = some a →
            G'.attr (.actionN (t + u) k k') = actionAttr k k' rname a) ∧
          G'.hasEdge (.ruleN (t + u) k) r.fromI.nodeId ∧
          (∀ l, r.label = some l →
            G'.hasEdge (.ruleN (t + u) k) (.labelN (some l))) ∧
          (∀ k', k' < r.actions.length →
            G'.hasEdge (chainNode (t + u) k k') (.actionN (t + u) k k')) ∧
          (∀ k' l, (r.actions[k']? = some (.push l) ∨
              r.actions[k']? = some (.swap l)) →
            G'.hasEdge (.actionN (t + u) k k') (.labelN (some l))) ∧
          G'.hasEdge (chainNode (t + u) k r.actions.length) r.toI.nodeId) ∧
      (∀ m, (∀ u rname dests k dest r, tables[u]? = some (rname, dests) →
          dests[k]? = some dest → firstRule dest = .ok r →
          m ≠ NodeId.ruleN (t + u) k ∧ ∀ k', k' < r.actions.length →
            m ≠ NodeId.actionN (t + u) k k') →
        G'.attr m = G.attr m) ∧
      (∀ x y, G.hasEdge x y → G'.hasEdge x y) ∧
      (∀ m, G.hasNode m → G'.hasNode m) ∧
      (∀ e ∈ G'.edges, e ∈ G.edges ∨ ∃ u rname dests k dest r,
        tables[u]? = some (rname, dests) ∧ dests[k]? = some dest ∧
        firstRule dest = .ok r ∧ fwdRuleEdge (t + u) k r e) := by
  induction tables with
  | nil =>
    intro G t G' h
    simp only [tablesLoop, Except.ok.injEq] at h
    subst h
    refine ⟨?_, fun _ _ => rfl, fun _ _ hxy => hxy, fun _ hm => hm,
      fun e he => Or.inl he⟩
    intro u rname dests hu
    simp at hu
  | cons entry rest ih =>
    intro G t G' h
    obtain ⟨rname0, dests0⟩ := entry
    simp only [tablesLoop] at h
    cases hs : destsLoop G t rname0 0 dests0 with
    | error e =>
      rw [hs] at h
      exact absurd h (by simp)
    | ok G₂ =>
      simp only [hs] at h
      obtain ⟨hper, hattrP, hE, hN, hecases⟩ := destsLoop_facts dests0 G t rname0 0 G₂ hs
      obtain ⟨hper', hattrP', hE', hN', hecases'⟩ := ih G₂ (t + 1) G' h
      refine ⟨?_, ?_, fun x y hxy => hE' _ _ (hE _ _ hxy),
        fun m hm => hN' _ (hN _ hm), ?_⟩
      · intro u rname dests hu k dest hk
        cases u with
        | zero =>
          simp only [List.getElem?_cons_zero, Option.some.injEq,
            Prod.mk.injEq] at hu
          obtain ⟨rfl, rfl⟩ := hu
          obtain ⟨r, hr, hattrR, hunk, hattrA, hfrom, hlabl, hchain, hlabE,
            hto⟩ := hper k dest hk
          rw [Nat.zero_add] at hattrR hattrA hfrom hlabl hchain hlabE hto
          rw [Nat.add_zero]
          refine ⟨r, hr, ?_, hunk, ?_, hE' _ _ hfrom,
            fun l hl => hE' _ _ (hlabl l hl),
            fun k' hk' => hE' _ _ (hchain k' hk'),
            fun k' l hl => hE' _ _ (hlabE k' l hl),
            hE' _ _ hto⟩
          · rw [hattrP' _ (fun u' rname' dests' k'' dest'' r'' hu'' hk'' hr'' => ⟨by
                intro hc
                have := (NodeId.ruleN.injEq _ _ _ _).mp hc
                omega,
              fun k' _ hc => NodeId.noConfusion hc⟩)]
            exact hattrR
          · intro k' a ha
            rw [hattrP' _ (fun u' rname' dests' k'' dest'' r'' hu'' hk'' hr'' => ⟨
                fun hc => NodeId.noConfusion hc,
                fun k''' _ hc => by
                  have := (NodeId.actionN.injEq _ _ _ _ _ _).mp hc
                  omega⟩)]
            exact hattrA k' a ha
        | succ u' =>
          simp only [List.getElem?_cons_succ] at hu
          obtain ⟨r, hr, hrest⟩ := hper' u' rname dests hu k dest hk
          refine ⟨r, hr, ?_⟩
          rw [show t + (u' + 1) = t + 1 + u' by omega]
          exact hrest
      · intro m hm
        rw [hattrP' m (fun u' rname' dests' k dest r hu hk hr => by
            have := hm (u' + 1) rname' dests' k dest r (by simpa using hu) hk hr
            rwa [show t + (u' + 1) = t + 1 + u' by omega] at this),
          hattrP m (fun k dest r hk hr => by
            have := hm 0 rname0 dests0 k dest r (by simp) hk hr
            rw [Nat.add_zero] at this
            rwa [Nat.zero_add])]
      · intro e he
        rcases hecases' e he with he1 | ⟨u, rname', dests', k, dest, r, hu,
          hk, hr, hshape⟩
        · rcases hecases e he1 with he2 | ⟨k, dest, r, hk, hr, hshape⟩
          · exact Or.inl he2
          · refine Or.inr ⟨0, rname0, dests0, k, dest, r, by simp, hk, hr, ?_⟩
            rw [Nat.add_zero]
            rwa [Nat.zero_add] at hshape
        · refine Or.inr ⟨u + 1, rname', dests', k, dest, r, by simpa using hu,
            hk, hr, ?_⟩
          rwa [show t + (u + 1) = t + 1 + u by omega]

/-! ## Facts about the topology/label phase (`baseGraph`) -/

theorem Graph.attr_add_node_cases (G : Graph) (k : NodeId) (a : NAttr)
    (m : NodeId) (na : NAttr) (h : (G.add_node k a).attr m = some na) :
    G.attr m = some na ∨ na = a := by
  by_cases hm : m = k
  · subst hm
    rw [Graph.attr_add_node_self] at h
    exact Or.inr (Option.some.inj h).symm
  · rw [Graph.attr_add_node_ne _ _ _ _ hm] at h
    exact Or.inl h

theorem addIfaces_edges_topo (inames : List String) :
    ∀ G rname, (∀ e ∈ G.edges, topoNode e.1 ∧ topoNode e.2) →
      ∀ e ∈ (addIfaces G rname inames).edges, topoNode e.1 ∧ topoNode e.2 := by
  induction inames with
  | nil => exact fun G rname h => h
  | cons iname rest ih =>
    intro G rname h e he
    refine ih _ rname ?_ e he
    intro e' he'
    rcases Graph.edges_mem_add_edge _ _ _ _ he' with he'' | rfl
    · rw [Graph.edges_add_node] at he''
      exact h e' he''
    · exact ⟨trivial, trivial⟩

theorem addRouters_edges_topo (routers : List Router) :
    ∀ G, (∀ e ∈ G.edges, topoNode e.1 ∧ topoNode e.2) →
      ∀ e ∈ (addRouters G routers).edges, topoNode e.1 ∧ topoNode e.2 := by
  induction routers with
  | nil => exact fun G h => h
  | cons r rest ih =>
    intro G h e he
    refine ih _ ?_ e he
    refine addIfaces_edges_topo r.interfaces _ r.name ?_
    intro e' he'
    rw [Graph.edges_add_node] at he'
    exact h e' he'

theorem addLinks_edges_topo (links : List Link) :
    ∀ G, (∀ e ∈ G.edges, topoNode e.1 ∧ topoNode e.2) →
      ∀ e ∈ (addLinks G links).edges, topoNode e.1 ∧ topoNode e.2 := by
  induction links with
  | nil => exact fun G h => h
  | cons l rest ih =>
    intro G h e he
    refine ih _ ?_ e he
    intro e' he'
    rcases Graph.edges_mem_add_edge _ _ _ _ he' with he'' | rfl
    · exact h e' he''
    · exact ⟨trivial, trivial⟩

theorem addLabels_edges (labels : List String) :
    ∀ G, (addLabels G labels).edges = G.edges := by
  induction labels with
  | nil => exact fun G => rfl
  | cons l rest ih =>
    intro G
    rw [addLabels, ih, Graph.edges_add_node]

theorem baseGraph_edges_topo (net : Network) :
    ∀ e ∈ (baseGraph net).edges, topoNode e.1 ∧ topoNode e.2 := by
  intro e he
  unfold baseGraph at he
  rw [addLabels_edges, Graph.edges_add_node] at he
  refine addLinks_edges_topo net.links _ ?_ e he
  refine addRouters_edges_topo net.routers _ ?_
  intro e' he'
  simp [Graph.empty] at he'

theorem addIfaces_attr_topo (inames : List String) :
    ∀ G rname, (∀ n na, G.attr n = some na →
        na.ntype = .Router ∨ na.ntype = .Interface ∨ na.ntype = .Label) →
      ∀ n na, (addIfaces G rname inames).attr n = some na →
        na.ntype = .Router ∨ na.ntype = .Interface ∨ na.ntype = .Label := by
  induction inames with
  | nil => exact fun G rname h => h
  | cons iname rest ih =>
    intro G rname h n na hna
    refine ih _ rname ?_ n na hna
    intro n' na' hna'
    rw [Graph.attr_add_edge] at hna'
    rcases Graph.attr_add_node_cases _ _ _ _ _ hna' with hna'' | rfl
    · exact h n' na' hna''
    · exact Or.inr (Or.inl rfl)

theorem addRouters_attr_topo (routers : List Router) :
    ∀ G, (∀ n na, G.attr n = some na →
        na.ntype = .Router ∨ na.ntype = .Interface ∨ na.ntype = .Label) →
      ∀ n na, (addRouters G routers).attr n = some na →
        na.ntype = .Router ∨ na.ntype = .Interface ∨ na.ntype = .Label := by
  induction routers with
  | nil => exact fun G h => h
  | cons r rest ih =>
    intro G h n na hna
    refine ih _ ?_ n na hna
    refine addIfaces_attr_topo r.interfaces _ r.name ?_
    intro n' na' hna'
    rcases Graph.attr_add_node_cases _ _ _ _ _ hna' with hna'' | rfl
    · exact h n' na' hna''
    · exact Or.inl rfl

theorem addLinks_attr (links : List Link) :
    ∀ G m, (addLinks G links).attr m = G.attr m := by
  induction links with
  | nil => exact fun G m => rfl
  | cons l rest ih =>
    intro G m
    rw [addLinks, ih, Graph.attr_add_edge]

theorem addLabels_attr_topo (labels : List String) :
    ∀ G, (∀ n na, G.attr n = some na →
        na.ntype = .Router ∨ na.ntype = .Interface ∨ na.ntype = .Label) →
      ∀ n na, (addLabels G labels).attr n = some na →
        na.ntype = .Router ∨ na.ntype = .Interface ∨ na.ntype = .Label := by
  induction labels with
  | nil => exact fun G h => h
  | cons l rest ih =>
    intro G h n na hna
    refine ih _ ?_ n na hna
    intro n' na' hna'
    rcases Graph.attr_add_node_cases _ _ _ _ _ hna' with hna'' | rfl
    · exact h n' na' hna''
    · exact Or.inr (Or.inr rfl)

theorem baseGraph_attr_topo (net : Network) (n : NodeId) (na : NAttr)
    (h : (baseGraph net).attr n = some na) :
    na.ntype = .Router ∨ na.ntype = .Interface ∨ na.ntype = .Label := by
  unfold baseGraph at h
  refine addLabels_attr_topo net.labels _ ?_ n na h
  intro n' na' hna'
  rcases Graph.attr_add_node_cases _ _ _ _ _ hna' with hna'' | rfl
  · rw [addLinks_attr] at hna''
    refine addRouters_attr_topo net.routers _ ?_ n' na' hna''
    intro n'' na'' hna''
    simp [Graph.attr, Graph.empty, lookupAttr] at hna''
  · exact Or.inr (Or.inr rfl)

/-! ## `chainNode` case helpers -/

theorem chainNode_eq_ruleN (t d j t' d' : Nat)
    (h : chainNode t d j = .ruleN t' d') : t = t' ∧ d = d' ∧ j = 0 := by
  cases j with
  | zero =>
    simp only [chainNode, NodeId.ruleN.injEq] at h
    exact ⟨h.1, h.2, rfl⟩
  | succ n => simp [chainNode] at h

theorem chainNode_eq_actionN (t d j t' d' j' : Nat)
    (h : chainNode t d j = .actionN t' d' j') : t = t' ∧ d = d' ∧ j = j' + 1 := by
  cases j with
  | zero => simp [chainNode] at h
  | succ n =>
    simp only [chainNode, NodeId.actionN.injEq] at h
    exact ⟨h.1, h.2.1, by omega⟩

theorem chainNode_ne_labelN (t d j : Nat) (l : Option String) :
    chainNode t d j ≠ .labelN l := by
  cases j <;> simp [chainNode]

theorem chainNode_ne_queryN (t d j : Nat) : chainNode t d j ≠ .queryN := by
  cases j <;> simp [chainNode]

theorem Intf.nodeId_ne_labelN (i : Intf) (l : Option String) :
    i.nodeId ≠ .labelN l := by
  cases i
  simp [Intf.nodeId]

theorem Intf.nodeId_ne_chainNode (i : Intf) (t d j : Nat) :
    i.nodeId ≠ chainNode t d j := by
  cases i
  cases j <;> simp [Intf.nodeId, chainNode]

theorem chainNode_inj (t d j j' : Nat)
    (h : chainNode t d j = chainNode t d j') : j = j' := by
  cases j with
  | zero =>
    cases j' with
    | zero => rfl
    | succ m => exact absurd h (by simp [chainNode])
  | succ m =>
    cases j' with
    | zero => exact absurd h (by simp [chainNode])
    | succ m' =>
      simp only [chainNode, NodeId.actionN.injEq] at h
      omega

theorem chainNode_not_topo (t d j : Nat) : ¬ topoNode (chainNode t d j) := by
  cases j <;> simp [chainNode, topoNode]

/-! ## C3: exactly one Rule node per destination entry -/

/-- C3: for every router's routing table and every destination entry, the
forwarding encoder creates exactly one Rule node, for the first rule of the
first traffic-engineering group (Rule-typed nodes exist only at listed
(table, destination) positions, so later groups and rules of a destination
produce none); that Rule node has an edge to the rule's input Interface
node and an edge to a Label node iff that label is the rule's label and not
the no-label sentinel. -/
theorem forwarding_one_rule_per_destination (net : Network) (G' : Graph)
    (h : tablesLoop (baseGraph net) 0 net.routingTables = .ok G')
    (t : Nat) (rname : String) (dests : List Destination) (d : Nat)
    (dest : Destination)
    (ht : net.routingTables[t]? = some (rname, dests))
    (hd : dests[d]? = some dest) :
    ∃ r, firstRule dest = .ok r ∧
      G'.attr (.ruleN t d) = some (ruleAttr d rname) ∧
      G'.hasEdge (.ruleN t d) r.fromI.nodeId ∧
      (∀ l, G'.hasEdge (.ruleN t d) (.labelN l) ↔
        ∃ s, l = some s ∧ r.label = some s) ∧
      (∀ n na, G'.attr n = some na → na.ntype = .Rule →
        ∃ t' rname' dests' d' dest',
          net.routingTables[t']? = some (rname', dests') ∧
          dests'[d']? = some dest' ∧ n = .ruleN t' d') := by
  obtain ⟨hper, hattrP, hE, hN, hecases⟩ :=
    tablesLoop_facts net.routingTables (baseGraph net) 0 G' h
  obtain ⟨r, hr, hattrR, hunk, hattrA, hfrom, hlabl, hchain, hlabE, hto⟩ :=
    hper t rname dests ht d dest hd
  rw [Nat.zero_add] at hattrR hattrA hfrom hlabl hchain hlabE hto
  refine ⟨r, hr, hattrR, hfrom, ?_, ?_⟩
  · intro l
    constructor
    · intro hedge
      obtain ⟨e, he, hor⟩ := hedge
      obtain ⟨e1, e2⟩ := e
      rcases hecases _ he with hbase | ⟨u, rname', dests', k, dest', r', hu,
        hk, hr', hshape⟩
      · obtain ⟨h1, h2⟩ := baseGraph_edges_topo net _ hbase
        rcases hor with ⟨ha, hb⟩ | ⟨ha, hb⟩
        · rw [ha] at h1
          exact absurd h1 (by simp [topoNode])
        · rw [hb] at h2
          exact absurd h2 (by simp [topoNode])
      · rw [Nat.zero_add] at hshape
        rcases hor with ⟨ha, hb⟩ | ⟨ha, hb⟩ <;>
          simp only at ha hb <;> subst ha <;> subst hb
        · rcases hshape with heq | ⟨s, hls, heq⟩ | ⟨jj, aa, ss, hja, hal, heq⟩ |
            ⟨jj, hjj, heq⟩ | heq
          · have hx := congrArg Prod.snd heq
            exact absurd hx.symm (Intf.nodeId_ne_labelN _ _)
          · obtain ⟨h1, h2⟩ := Prod.mk.injEq .. |>.mp heq.symm
            obtain ⟨rfl, rfl⟩ := (NodeId.ruleN.injEq .. |>.mp h1.symm)
            obtain rfl := (NodeId.labelN.injEq .. |>.mp h2.symm)
            obtain ⟨hx, hy⟩ := Prod.mk.injEq .. |>.mp
              (Option.some.inj (ht.symm.trans hu))
            subst hx
            subst hy
            obtain rfl := Option.some.inj (hd.symm.trans hk)
            obtain rfl := Except.ok.inj (hr.symm.trans hr')
            exact ⟨s, rfl, hls⟩
          · obtain ⟨h1, _⟩ := Prod.mk.injEq .. |>.mp heq.symm
            exact NodeId.noConfusion h1
          · obtain ⟨h1, h2⟩ := Prod.mk.injEq .. |>.mp heq.symm
            exact NodeId.noConfusion h2
          · obtain ⟨_, h2⟩ := Prod.mk.injEq .. |>.mp heq.symm
            obtain ⟨i1, i2⟩ := r'.toI
            exact NodeId.noConfusion h2
        · rcases hshape with heq | ⟨s, hls, heq⟩ | ⟨jj, aa, ss, hja, hal, heq⟩ |
            ⟨jj, hjj, heq⟩ | heq
          · obtain ⟨h1, _⟩ := Prod.mk.injEq .. |>.mp heq.symm
            exact NodeId.noConfusion h1
          · obtain ⟨h1, _⟩ := Prod.mk.injEq .. |>.mp heq.symm
            exact NodeId.noConfusion h1
          · obtain ⟨h1, _⟩ := Prod.mk.injEq .. |>.mp heq.symm
            exact NodeId.noConfusion h1
          · obtain ⟨h1, _⟩ := Prod.mk.injEq .. |>.mp heq.symm
            exact absurd h1 (chainNode_ne_labelN _ _ _ _)
          · obtain ⟨h1, _⟩ := Prod.mk.injEq .. |>.mp heq.symm
            exact absurd h1 (chainNode_ne_labelN _ _ _ _)
    · rintro ⟨s, rfl, hlab⟩
      exact hlabl s hlab
  · intro n na hna hrule
    by_cases hc : ∀ u rname' dests' k dest' r',
        net.routingTables[u]? = some (rname', dests') →
        dests'[k]? = some dest' → firstRule dest' = .ok r' →
        n ≠ NodeId.ruleN (0 + u) k ∧ ∀ k', k' < r'.actions.length →
          n ≠ NodeId.actionN (0 + u) k k'
    · rw [hattrP n hc] at hna
      rcases baseGraph_attr_topo net n na hna with h1 | h1 | h1 <;>
        rw [hrule] at h1 <;> exact NodeType.noConfusion h1
    · push_neg at hc
      obtain ⟨u, rname', dests', k, dest', r', hu, hk, hr', hcon⟩ := hc
      by_cases hn : n = NodeId.ruleN (0 + u) k
      · rw [Nat.zero_add] at hn
        exact ⟨u, rname', dests', k, dest', hu, hk, hn⟩
      · obtain ⟨k', hk', hn'⟩ := hcon hn
        obtain ⟨r'', hr'', hattrR'', _, hattrA'', _⟩ :=
          hper u rname' dests' hu k dest' hk
        obtain rfl := Except.ok.inj (hr'.symm.trans hr'')
        have hga : r'.actions[k']? = some (r'.actions[k']) :=
          List.getElem?_eq_getElem hk'
        have hattr := hattrA'' k' _ hga
        rw [← hn'] at hattr
        rw [hna] at hattr
        cases hact : r'.actions[k'] with
        | push l =>
          rw [hact] at hattr
          simp only [actionAttr, Option.some.injEq] at hattr
          rw [hattr] at hrule
          exact NodeType.noConfusion hrule
        | swap l =>
          rw [hact] at hattr
          simp only [actionAttr, Option.some.injEq] at hattr
          rw [hattr] at hrule
          exact NodeType.noConfusion hrule
        | pop =>
          rw [hact] at hattr
          simp only [actionAttr, Option.some.injEq] at hattr
          rw [hattr] at hrule
          exact NodeType.noConfusion hrule
        | unknownAction =>
          rw [hact] at hattr
          simp [actionAttr] at hattr

/-- Witness for `forwarding_one_rule_per_destination` on the concrete
network `net8` at table 0, destination 0. -/
theorem forwarding_one_rule_per_destination_witness :
    ∃ r, firstRule dest8 = .ok r ∧
      fwd8.attr (.ruleN 0 0) = some (ruleAttr 0 "R1") ∧
      fwd8.hasEdge (.ruleN 0 0) r.fromI.nodeId ∧
      (∀ l, fwd8.hasEdge (.ruleN 0 0) (.labelN l) ↔
        ∃ s, l = some s ∧ r.label = some s) ∧
      (∀ n na, fwd8.attr n = some na → na.ntype = .Rule →
        ∃ t' rname' dests' d' dest',
          net8.routingTables[t']? = some (rname', dests') ∧
          dests'[d']? = some dest' ∧ n = .ruleN t' d') :=
  forwarding_one_rule_per_destination net8 fwd8 rfl 0 "R1" [dest8] 0 dest8
    rfl rfl

/-! ## C4: the rule's action chain is a simple path -/

/-- C4: for the encoded rule `r` of destination `d` of table `t`, with
`n = r.actions.length`, the chain positions `chainNode t d 0 .. n` (the
Rule node followed by one action node per action, in list order) are
pairwise distinct and distinct from the output-Interface node; on any
successful run each consecutive pair is edged, the last position is edged
to the output Interface, each action node carries its typed attributes,
each push/swap action node is edged to the Label node of the label it
manipulates, a pop action node has no edge to any Label node, and the only
edges between chain positions are the consecutive ones (no shortcuts); if
the rule contains an action of any other kind, the whole forwarding phase
raises instead of producing a graph. -/
theorem rule_action_chain_path (net : Network)
    (t : Nat) (rname : String) (dests : List Destination) (d : Nat)
    (dest : Destination) (r : Rule)
    (ht : net.routingTables[t]? = some (rname, dests))
    (hd : dests[d]? = some dest)
    (hr : firstRule dest = .ok r) :
    (Action.unknownAction ∈ r.actions →
      ∃ err, tablesLoop (baseGraph net) 0 net.routingTables = .error err) ∧
    (∀ j j', chainNode t d j = chainNode t d j' → j = j') ∧
    (∀ j, chainNode t d j ≠ r.toI.nodeId) ∧
    ∀ G', tablesLoop (baseGraph net) 0 net.routingTables = .ok G' →
      (∀ j a, r.actions[j]? = some a →
        G'.attr (.actionN t d j) = actionAttr d j rname a) ∧
      (∀ j, j < r.actions.length →
        G'.hasEdge (chainNode t d j) (chainNode t d (j + 1))) ∧
      G'.hasEdge (chainNode t d r.actions.length) r.toI.nodeId ∧
      (∀ j l, (r.actions[j]? = some (.push l) ∨
          r.actions[j]? = some (.swap l)) →
        G'.hasEdge (.actionN t d j) (.labelN (some l))) ∧
      (∀ j, r.actions[j]? = some .pop →
        ∀ l, ¬ G'.hasEdge (.actionN t d j) (.labelN l)) ∧
      (∀ j j', G'.hasEdge (chainNode t d j) (chainNode t d j') →
        (j' = j + 1 ∧ j' ≤ r.actions.length) ∨
        (j = j' + 1 ∧ j ≤ r.actions.length)) := by
  refine ⟨?_, fun j j' hjj => chainNode_inj t d j j' hjj,
    fun j hj => absurd hj.symm (Intf.nodeId_ne_chainNode _ _ _ _), ?_⟩
  · intro hmem
    cases hres : tablesLoop (baseGraph net) 0 net.routingTables with
    | error e => exact ⟨e, rfl⟩
    | ok G' =>
      obtain ⟨hper, _, _, _, _⟩ :=
        tablesLoop_facts net.routingTables (baseGraph net) 0 G' hres
      obtain ⟨r0, hr0, _, hunk, _⟩ := hper t rname dests ht d dest hd
      obtain rfl := Except.ok.inj (hr.symm.trans hr0)
      exact absurd rfl (hunk _ hmem)
  · intro G' h
    obtain ⟨hper, hattrP, hE, hN, hecases⟩ :=
      tablesLoop_facts net.routingTables (baseGraph net) 0 G' h
    obtain ⟨r0, hr0, hattrR, hunk, hattrA, hfrom, hlabl, hchain, hlabE, hto⟩ :=
      hper t rname dests ht d dest hd
    obtain rfl := Except.ok.inj (hr.symm.trans hr0)
    rw [Nat.zero_add] at hattrR hattrA hfrom hlabl hchain hlabE hto
    refine ⟨hattrA, fun j hj => hchain j hj, hto, hlabE, ?_, ?_⟩
    · intro j hjp l hedge
      obtain ⟨e, he, hor⟩ := hedge
      obtain ⟨e1, e2⟩ := e
      rcases hecases _ he with hbase | ⟨u, rname', dests', k, dest', r'', hu,
        hk, hr'', hshape⟩
      · obtain ⟨h1, h2⟩ := baseGraph_edges_topo net _ hbase
        rcases hor with ⟨ha, hb⟩ | ⟨ha, hb⟩
        · rw [ha] at h1
          exact absurd h1 (by simp [topoNode])
        · rw [hb] at h2
          exact absurd h2 (by simp [topoNode])
      · rw [Nat.zero_add] at hshape
        rcases hor with ⟨ha, hb⟩ | ⟨ha, hb⟩ <;>
          simp only at ha hb <;> subst ha <;> subst hb
        · rcases hshape with heq | ⟨s, hls, heq⟩ | ⟨jj, aa, ss, hja, hal, heq⟩ |
            ⟨jj, hjj, heq⟩ | heq
          · obtain ⟨h1, _⟩ := Prod.mk.injEq .. |>.mp heq
            exact NodeId.noConfusion h1
          · obtain ⟨h1, _⟩ := Prod.mk.injEq .. |>.mp heq
            exact NodeId.noConfusion h1
          · obtain ⟨h1, h2⟩ := Prod.mk.injEq .. |>.mp heq
            obtain ⟨rfl, rfl, rfl⟩ := NodeId.actionN.injEq .. |>.mp h1
            obtain ⟨hx, hy⟩ := Prod.mk.injEq .. |>.mp
              (Option.some.inj (ht.symm.trans hu))
            subst hx
            subst hy
            obtain rfl := Option.some.inj (hd.symm.trans hk)
            obtain rfl := Except.ok.inj (hr.symm.trans hr'')
            obtain rfl := Option.some.inj (hja.symm.trans hjp)
            simp [actionLabel] at hal
          · obtain ⟨_, h2⟩ := Prod.mk.injEq .. |>.mp heq
            exact NodeId.noConfusion h2
          · obtain ⟨_, h2⟩ := Prod.mk.injEq .. |>.mp heq
            exact absurd h2.symm (Intf.nodeId_ne_labelN _ _)
        · rcases hshape with heq | ⟨s, hls, heq⟩ | ⟨jj, aa, ss, hja, hal, heq⟩ |
            ⟨jj, hjj, heq⟩ | heq
          · obtain ⟨h1, _⟩ := Prod.mk.injEq .. |>.mp heq
            exact NodeId.noConfusion h1
          · obtain ⟨h1, _⟩ := Prod.mk.injEq .. |>.mp heq
            exact NodeId.noConfusion h1
          · obtain ⟨h1, _⟩ := Prod.mk.injEq .. |>.mp heq
            exact NodeId.noConfusion h1
          · obtain ⟨h1, _⟩ := Prod.mk.injEq .. |>.mp heq
            exact absurd h1.symm (chainNode_ne_labelN _ _ _ _)
          · obtain ⟨h1, _⟩ := Prod.mk.injEq .. |>.mp heq
            exact absurd h1.symm (chainNode_ne_labelN _ _ _ _)
    · intro j j' hedge
      obtain ⟨e, he, hor⟩ := hedge
      obtain ⟨e1, e2⟩ := e
      rcases hecases _ he with hbase | ⟨u, rname', dests', k, dest', r'', hu,
        hk, hr'', hshape⟩
      · obtain ⟨h1, h2⟩ := baseGraph_edges_topo net _ hbase
        rcases hor with ⟨ha, hb⟩ | ⟨ha, hb⟩
        · rw [ha] at h1
          exact absurd h1 (chainNode_not_topo _ _ _)
        · rw [ha] at h1
          exact absurd h1 (chainNode_not_topo _ _ _)
      · rw [Nat.zero_add] at hshape
        rcases hor with ⟨ha, hb⟩ | ⟨ha, hb⟩ <;>
          simp only at ha hb <;> subst ha <;> subst hb
        · rcases hshape with heq | ⟨s, hls, heq⟩ | ⟨jj, aa, ss, hja, hal, heq⟩ |
            ⟨jj, hjj, heq⟩ | heq
          · obtain ⟨_, h2⟩ := Prod.mk.injEq .. |>.mp heq
            exact absurd h2.symm (Intf.nodeId_ne_chainNode _ _ _ _)
          · obtain ⟨_, h2⟩ := Prod.mk.injEq .. |>.mp heq
            exact absurd h2 (chainNode_ne_labelN _ _ _ _)
          · obtain ⟨_, h2⟩ := Prod.mk.injEq .. |>.mp heq
            exact absurd h2 (chainNode_ne_labelN _ _ _ _)
          · obtain ⟨h1, h2⟩ := Prod.mk.injEq .. |>.mp heq
            obtain ⟨rfl, rfl, rfl⟩ := chainNode_eq_actionN _ _ _ _ _ _ h2
            obtain rfl := chainNode_inj _ _ _ _ h1
            obtain ⟨hx, hy⟩ := Prod.mk.injEq .. |>.mp
              (Option.some.inj (ht.symm.trans hu))
            subst hx
            subst hy
            obtain rfl := Option.some.inj (hd.symm.trans hk)
            obtain rfl := Except.ok.inj (hr.symm.trans hr'')
            exact Or.inl ⟨rfl, by omega⟩
          · obtain ⟨_, h2⟩ := Prod.mk.injEq .. |>.mp heq
            exact absurd h2.symm (Intf.nodeId_ne_chainNode _ _ _ _)
        · rcases hshape with heq | ⟨s, hls, heq⟩ | ⟨jj, aa, ss, hja, hal, heq⟩ |
            ⟨jj, hjj, heq⟩ | heq
          · obtain ⟨_, h2⟩ := Prod.mk.injEq .. |>.mp heq
            exact absurd h2.symm (Intf.nodeId_ne_chainNode _ _ _ _)
          · obtain ⟨_, h2⟩ := Prod.mk.injEq .. |>.mp heq
            exact absurd h2 (chainNode_ne_labelN _ _ _ _)
          · obtain ⟨_, h2⟩ := Prod.mk.injEq .. |>.mp heq
            exact absurd h2 (chainNode_ne_labelN _ _ _ _)
          · obtain ⟨h1, h2⟩ := Prod.mk.injEq .. |>.mp heq
            obtain ⟨rfl, rfl, rfl⟩ := chainNode_eq_actionN _ _ _ _ _ _ h2
            obtain rfl := chainNode_inj _ _ _ _ h1
            obtain ⟨hx, hy⟩ := Prod.mk.injEq .. |>.mp
              (Option.some.inj (ht.symm.trans hu))
            subst hx
            subst hy
            obtain rfl := Option.some.inj (hd.symm.trans hk)
            obtain rfl := Except.ok.inj (hr.symm.trans hr'')
            exact Or.inr ⟨rfl, by omega⟩
          · obtain ⟨_, h2⟩ := Prod.mk.injEq .. |>.mp heq
            exact absurd h2.symm (Intf.nodeId_ne_chainNode _ _ _ _)

/-- Witness for `rule_action_chain_path` on `net8` at table 0,
destination 0, rule `rule8`. -/
theorem rule_action_chain_path_witness :
    (Action.unknownAction ∈ rule8.actions →
      ∃ err, tablesLoop (baseGraph net8) 0 net8.routingTables = .error err) ∧
    (∀ j j', chainNode 0 0 j = chainNode 0 0 j' → j = j') ∧
    (∀ j, chainNode 0 0 j ≠ rule8.toI.nodeId) ∧
    ∀ G', tablesLoop (baseGraph net8) 0 net8.routingTables = .ok G' →
      (∀ j a, rule8.actions[j]? = some a →
        G'.attr (.actionN 0 0 j) = actionAttr 0 j "R1" a) ∧
      (∀ j, j < rule8.actions.length →
        G'.hasEdge (chainNode 0 0 j) (chainNode 0 0 (j + 1))) ∧
      G'.hasEdge (chainNode 0 0 rule8.actions.length) rule8.toI.nodeId ∧
      (∀ j l, (rule8.actions[j]? = some (.push l) ∨
          rule8.actions[j]? = some (.swap l)) →
        G'.hasEdge (.actionN 0 0 j) (.labelN (some l))) ∧
      (∀ j, rule8.actions[j]? = some .pop →
        ∀ l, ¬ G'.hasEdge (.actionN 0 0 j) (.labelN l)) ∧
      (∀ j j', G'.hasEdge (chainNode 0 0 j) (chainNode 0 0 j') →
        (j' = j + 1 ∧ j' ≤ rule8.actions.length) ∨
        (j = j' + 1 ∧ j ≤ rule8.actions.length)) :=
  rule_action_chain_path net8 0 "R1" [dest8] 0 dest8 rule8 rfl rfl rfl

/-! ## C9: the query node's single edge for an absent constructing pattern -/

theorem registerLabel_edges (G : Graph) (s : String) :
    (registerLabel G s).edges = G.edges := by
  unfold registerLabel
  split
  · rfl
  · exact Graph.edges_add_node _ _ _

theorem ensureLoop_edges (atoms : List PAtom) :
    ∀ G, (ensureLoop G atoms).edges = G.edges := by
  induction atoms with
  | nil => exact fun G => rfl
  | cons a rest ih =>
    intro G
    cases a with
    | plain a' =>
      cases a' with
      | simple s =>
        rw [show ensureLoop G (.plain (.simple s) :: rest)
            = ensureLoop (registerLabel G s) rest from rfl,
          ih, registerLabel_edges]
      | anyA =>
        rw [show ensureLoop G (.plain .anyA :: rest) = ensureLoop G rest from rfl,
          ih]
    | quantified q a' =>
      cases a' with
      | simple s =>
        rw [show ensureLoop G (.quantified q (.simple s) :: rest)
            = ensureLoop (registerLabel G s) rest from rfl,
          ih, registerLabel_edges]
      | anyA =>
        rw [show ensureLoop G (.quantified q .anyA :: rest) = ensureLoop G rest
            from rfl,
          ih]

theorem ensure_label_nodes_edges (G : Graph) (st : Option (List PAtom)) :
    (ensure_label_nodes G st).edges = G.edges := by
  cases st with
  | none => rfl
  | some atoms => exact ensureLoop_edges atoms G

theorem ensure_label_nodes_incidentCount (G : Graph) (st : Option (List PAtom))
    (m : NodeId) :
    (ensure_label_nodes G st).incidentCount m = G.incidentCount m := by
  unfold Graph.incidentCount
  rw [ensure_label_nodes_edges]

theorem Intf.nodeId_ne_queryN (i : Intf) : i.nodeId ≠ .queryN := by
  cases i
  simp [Intf.nodeId]

/-- The forwarding phase never touches the query node: no edge of its
result graph is incident to `NodeType.Query`. -/
theorem tablesLoop_query_isolated (net : Network) (Gt : Graph)
    (h : tablesLoop (baseGraph net) 0 net.routingTables = .ok Gt) :
    Gt.incidentCount .queryN = 0 := by
  obtain ⟨_, _, _, _, hecases⟩ :=
    tablesLoop_facts net.routingTables (baseGraph net) 0 Gt h
  refine Graph.incidentCount_eq_zero _ _ ?_
  intro e he
  rcases hecases e he with hbase | ⟨u, rname, dests, k, dest, r, hu, hk, hr,
    hshape⟩
  · obtain ⟨h1, h2⟩ := baseGraph_edges_topo net _ hbase
    exact ⟨fun hcx => by rw [hcx] at h1; exact h1,
      fun hcx => by rw [hcx] at h2; exact h2⟩
  · rcases hshape with rfl | ⟨l, hl, rfl⟩ | ⟨jj, aa, ss, hja, hal, rfl⟩ |
      ⟨jj, hjj, rfl⟩ | rfl
    · exact ⟨fun hcx => NodeId.noConfusion hcx,
        fun hcx => Intf.nodeId_ne_queryN _ hcx⟩
    · exact ⟨fun hcx => NodeId.noConfusion hcx,
        fun hcx => NodeId.noConfusion hcx⟩
    · exact ⟨fun hcx => NodeId.noConfusion hcx,
        fun hcx => NodeId.noConfusion hcx⟩
    · exact ⟨fun hcx => chainNode_ne_queryN _ _ _ hcx,
        fun hcx => NodeId.noConfusion hcx⟩
    · exact ⟨fun hcx => chainNode_ne_queryN _ _ _ hcx,
        fun hcx => Intf.nodeId_ne_queryN _ hcx⟩

/-- C9 (counterexample): on the empty network and the query
`<> empty <.>` (absent constructing pattern, router path naming the
unknown router `empty`, non-absent destructing pattern), the finished
graph's Query node does have exactly one incident edge, to the `"empty"`
node — but that node carries `ntype = Router` (the router-path loop
re-keys it at source line 226), not a Label type as the claim states. -/
theorem empty_constructing_query_edge_cex :
    qEmptyRouter.constr = none ∧
    graphSat (mpls2graph emptyNet qEmptyRouter 0) (fun G =>
      decide (G.incidentCount .queryN = 1) &&
      decide (G.hasEdge .queryN (.strN "empty")) &&
      decide (G.attr (.strN "empty") = some ⟨.Router, "empty", none⟩))
      = true ∧
    NodeType.Router ≠ NodeType.Label :=
  ⟨rfl, rfl, fun hcc => NodeType.noConfusion hcc⟩

/-- C9 (amended): when the constructing pattern is absent, on any
successful run whose router path contains no plain atom naming an unknown
router literally called `empty`, the finished graph's Query node has
exactly one incident edge, that edge goes to the `"empty"` node, and that
node is Label-typed with label `label:empty`. -/
theorem empty_constructing_query_edge (net : Network) (query : QueryAst)
    (k : Int) (G' : Graph)
    (hc : query.constr = none)
    (hov : ¬ overwritesEmptyNode net query.network)
    (h : mpls2graph net query k = .ok G') :
    G'.incidentCount .queryN = 1 ∧
    G'.hasEdge .queryN (.strN "empty") ∧
    G'.attr (.strN "empty") = some ⟨.Label, "label:empty", none⟩ := by
  have hnone : ∀ (G : Graph), build_labels_graph_repr G (.single .queryN) none 0
      = .ok ((G.add_node (.strN "empty") ⟨.Label, "label:empty", none⟩).add_edge
          .queryN (.strN "empty"), .single (.strN "empty")) :=
    fun G => rfl
  unfold mpls2graph at h
  cases htab : tablesLoop (baseGraph net) 0 net.routingTables with
  | error e =>
    rw [htab] at h
    exact Except.noConfusion h
  | ok Gt =>
    simp only [htab] at h
    rw [hc] at h
    simp only [hnone] at h
    have hq2 : ((ensure_label_nodes (ensure_label_nodes Gt none)
        query.destr).add_node .queryN ⟨.Query, "query", some k⟩).incidentCount
        .queryN = 0 := by
      rw [Graph.incidentCount_add_node, ensure_label_nodes_incidentCount,
        ensure_label_nodes_incidentCount]
      exact tablesLoop_query_isolated net Gt htab
    have hnotE : ¬ (((ensure_label_nodes (ensure_label_nodes Gt none)
        query.destr).add_node .queryN ⟨.Query, "query", some k⟩).add_node
        (.strN "empty") ⟨.Label, "label:empty", none⟩).hasEdge .queryN
        (.strN "empty") := by
      apply Graph.not_hasEdge_of_incident_zero
      rw [Graph.incidentCount_add_node]
      exact hq2
    have hq3 : ((((ensure_label_nodes (ensure_label_nodes Gt none)
        query.destr).add_node .queryN ⟨.Query, "query", some k⟩).add_node
        (.strN "empty") ⟨.Label, "label:empty", none⟩).add_edge .queryN
        (.strN "empty")).incidentCount .queryN = 1 := by
      rw [Graph.incidentCount_add_edge_new _ _ _ _ hnotE (Or.inl rfl),
        Graph.incidentCount_add_node, hq2]
    have he3 : ((((ensure_label_nodes (ensure_label_nodes Gt none)
        query.destr).add_node .queryN ⟨.Query, "query", some k⟩).add_node
        (.strN "empty") ⟨.Label, "label:empty", none⟩).add_edge .queryN
        (.strN "empty")).hasEdge .queryN (.strN "empty") :=
      Graph.hasEdge_add_edge_self _ _ _
    have ha3 : ((((ensure_label_nodes (ensure_label_nodes Gt none)
        query.destr).add_node .queryN ⟨.Query, "query", some k⟩).add_node
        (.strN "empty") ⟨.Label, "label:empty", none⟩).add_edge .queryN
        (.strN "empty")).attr (.strN "empty")
        = some ⟨.Label, "label:empty", none⟩ := by
      rw [Graph.attr_add_edge]
      exact Graph.attr_add_node_self _ _ _
    cases hnet : netLoop net ((((ensure_label_nodes (ensure_label_nodes Gt none)
        query.destr).add_node .queryN ⟨.Query, "query", some k⟩).add_node
        (.strN "empty") ⟨.Label, "label:empty", none⟩).add_edge .queryN
        (.strN "empty")) (.single (.strN "empty")) 0 query.network with
    | error e =>
      rw [hnet] at h
      exact Except.noConfusion h
    | ok p =>
      obtain ⟨G4, l4⟩ := p
      simp only [hnet] at h
      obtain ⟨_, _, hmonoE, _, hattrE, hcount⟩ :=
        netLoop_ok_facts net query.network _ _ 0 G4 l4 hnet
      have hl0 : ∀ x ∈ (LastVal.single (NodeId.strN "empty")).toList,
          x ≠ NodeId.queryN := by
        intro x hx
        simp only [LastVal.toList, List.mem_singleton] at hx
        subst hx
        exact fun hcx => NodeId.noConfusion hcx
      obtain ⟨hq4, hl4⟩ := hcount hl0
      have he4 : G4.hasEdge .queryN (.strN "empty") := hmonoE _ _ he3
      have ha4 : G4.attr (.strN "empty") = some ⟨.Label, "label:empty", none⟩ := by
        rw [hattrE hov, ha3]
      have hq4' : G4.incidentCount .queryN = 1 := by
        rw [hq4, hq3]
      cases hdes : build_labels_graph_repr G4 l4 query.destr 2 with
      | error e =>
        rw [hdes] at h
        exact Except.noConfusion h
      | ok p2 =>
        obtain ⟨G5, l5⟩ := p2
        simp only [hdes] at h
        obtain rfl := Except.ok.inj h
        cases hqd : query.destr with
        | none =>
          rw [hqd] at hdes
          cases l4 with
          | multi ns =>
            simp [build_labels_graph_repr, addEdgeFromLast] at hdes
          | single x =>
            simp only [build_labels_graph_repr, addEdgeFromLast,
              Except.ok.injEq, Prod.mk.injEq] at hdes
            obtain ⟨hG5, _⟩ := hdes
            subst hG5
            have hx : x ≠ NodeId.queryN := hl4 x (by simp [LastVal.toList])
            refine ⟨?_, ?_, ?_⟩
            · rw [Graph.incidentCount_add_edge_ne _ _ _ _ hx
                  (fun hcx => NodeId.noConfusion hcx),
                Graph.incidentCount_add_node]
              exact hq4'
            · exact Graph.hasEdge_mono_add_edge _ _ _ _ _
                (Graph.hasEdge_add_node _ _ _ _ _ |>.mpr he4)
            · rw [Graph.attr_add_edge]
              exact Graph.attr_add_node_self _ _ _
        | some atoms =>
          rw [hqd] at hdes
          obtain ⟨hE5, _, hA5, hC5⟩ :=
            buildLoop_ok_facts 2 atoms G4 l4 0 [] none false G5 l5 hdes
          obtain ⟨hc5, _⟩ := hC5 hl4 (fun x hx => absurd hx (List.not_mem_nil x))
          refine ⟨?_, hE5 _ _ he4, ?_⟩
          · rw [hc5]
            exact hq4'
          · rw [hA5 _ (fun p j hcx => NodeId.noConfusion hcx)]
            exact ha4

/-- Witness for `empty_constructing_query_edge` on the empty network and
the query `<> X <>`. -/
theorem empty_constructing_query_edge_witness :
    mg9.incidentCount .queryN = 1 ∧
    mg9.hasEdge .queryN (.strN "empty") ∧
    mg9.attr (.strN "empty") = some ⟨.Label, "label:empty", none⟩ :=
  empty_constructing_query_edge emptyNet qUnknownRouter 0 mg9 rfl (by decide)
    rfl

end GT
